import Mathlib

/-!
Shallow embedding of the dashboard aggregation core of `app.py`
(finance_tracker): the calendar bucketer, the time-series aggregator
(`get_time_series_data`), the category aggregator (`get_top_categories`)
and the dashboard composer (`get_dashboard_data`), together with proofs
of the behavioural properties claimed for them.

Python `datetime` dates are modelled by `Date` triples in the proleptic
Gregorian calendar, restricted (as CPython is) to years 1..9999; amounts
(Python numbers / strings) are modelled over `ℚ`.
-/

namespace FinanceTracker

/-- A calendar date `(year, month, day)`; mirrors the date component of a
Python `datetime`.  Python restricts years to 1..9999, months to 1..12 and
days to the month's length; `Valid` states that restriction. -/
structure Date where
  year : ℕ
  month : ℕ
  day : ℕ
deriving DecidableEq

/-- Gregorian leap-year rule, as in Python's `calendar.isleap`. -/
def isLeap (y : ℕ) : Bool :=
  decide ((y % 4 = 0 ∧ ¬ y % 100 = 0) ∨ y % 400 = 0)

/-- Number of days of month `m` (1..12) in a (non-)leap year; mirrors
`calendar.monthrange` / the tables inside `datetime`. -/
def daysInMonthB (leap : Bool) (m : ℕ) : ℕ :=
  match m with
  | 1 => 31
  | 2 => if leap then 29 else 28
  | 3 => 31
  | 4 => 30
  | 5 => 31
  | 6 => 30
  | 7 => 31
  | 8 => 31
  | 9 => 30
  | 10 => 31
  | 11 => 30
  | 12 => 31
  | _ => 0

/-- Days of the year strictly before month `m` (1..12); mirrors
`datetime._days_before_month`. -/
def daysBeforeMonthB (leap : Bool) (m : ℕ) : ℕ :=
  (match m with
   | 1 => 0
   | 2 => 31
   | 3 => 59
   | 4 => 90
   | 5 => 120
   | 6 => 151
   | 7 => 181
   | 8 => 212
   | 9 => 243
   | 10 => 273
   | 11 => 304
   | 12 => 334
   | _ => 365) + (if leap ∧ 3 ≤ m then 1 else 0)

/-- Length of year `y` in days. -/
def daysInYear (y : ℕ) : ℕ := 365 + (if isLeap y then 1 else 0)

/-- Days strictly before year `y` in the proleptic Gregorian calendar;
mirrors `datetime._days_before_year` (`y-1` full years). -/
def daysBeforeYear (y : ℕ) : ℕ :=
  365 * (y - 1) + (y - 1) / 4 + (y - 1) / 400 - (y - 1) / 100

/-- Day of the year of a date (1-based). -/
def doy (D : Date) : ℕ := daysBeforeMonthB (isLeap D.year) D.month + D.day

/-- Proleptic Gregorian ordinal of a date; `toOrdinal ⟨1,1,1⟩ = 1`, exactly
Python's `date.toordinal`. -/
def toOrdinal (D : Date) : ℕ := daysBeforeYear D.year + doy D

/-- The date triple is one Python's `datetime` accepts. -/
def Valid (D : Date) : Prop :=
  1 ≤ D.year ∧ D.year ≤ 9999 ∧ 1 ≤ D.month ∧ D.month ≤ 12 ∧
    1 ≤ D.day ∧ D.day ≤ daysInMonthB (isLeap D.year) D.month

instance (D : Date) : Decidable (Valid D) := by
  unfold Valid; infer_instance

/-- Day of week, Monday = 0, exactly Python's `date.weekday()`
(ordinal 1, i.e. 0001-01-01, is a Monday). -/
def weekday (D : Date) : ℕ := (toOrdinal D - 1) % 7

/-- The previous calendar day, or `none` below `date.min`; models
`d - timedelta(days=1)` including the `OverflowError` at 0001-01-01. -/
def prevDay (D : Date) : Option Date :=
  if 2 ≤ D.day then some ⟨D.year, D.month, D.day - 1⟩
  else if 2 ≤ D.month then
    some ⟨D.year, D.month - 1, daysInMonthB (isLeap D.year) (D.month - 1)⟩
  else if 2 ≤ D.year then some ⟨D.year - 1, 12, 31⟩
  else none

/-- Computes `d - timedelta(days=k)`, or `none` when the result underflows the
Python `datetime` range. -/
def subDays : ℕ → Date → Option Date
  | 0, D => some D
  | k + 1, D => (prevDay D).bind (subDays k)

/-- The `(year, day-of-year)` pair of the Thursday of the ISO week containing `D`
(the Thursday fixes which year's week numbering applies).  The Thursday is
`D - weekday D + 3` days; the three branches re-express its day of year in
the year that actually contains it. -/
def isoParts (D : Date) : ℕ × ℕ :=
  if doy D + 3 < weekday D + 1 then
    (D.year - 1, doy D + 3 + daysInYear (D.year - 1) - weekday D)
  else if daysInYear D.year < doy D + 3 - weekday D then
    (D.year + 1, doy D + 3 - weekday D - daysInYear D.year)
  else (D.year, doy D + 3 - weekday D)

/-- ISO-8601 week number of `D` (1..53), the value of `strftime('%V')`:
the index of the Thursday of `D`'s week among the Thursdays of that
Thursday's calendar year. -/
def isoWeekNum (D : Date) : ℕ := ((isoParts D).2 - 1) / 7 + 1

/-- Decimal digit character for `n < 10`. -/
def digitChar (n : ℕ) : Char := Char.ofNat (48 + n)

/-- Renders `strftime('%Y-%m-%d')`: zero-padded 4-digit year, 2-digit month and
day. -/
def fmtDate (D : Date) : String :=
  String.mk [digitChar (D.year / 1000), digitChar (D.year / 100 % 10),
    digitChar (D.year / 10 % 10), digitChar (D.year % 10), '-',
    digitChar (D.month / 10), digitChar (D.month % 10), '-',
    digitChar (D.day / 10), digitChar (D.day % 10)]

/-- Renders `strftime('%Y-%m')` on a `(year, month)` pair. -/
def fmtMonthKey (y m : ℕ) : String :=
  String.mk [digitChar (y / 1000), digitChar (y / 100 % 10),
    digitChar (y / 10 % 10), digitChar (y % 10), '-',
    digitChar (m / 10), digitChar (m % 10)]

/-- Renders `strftime('%Y-W%V')`: calendar year of the date itself followed by the
ISO week number — note the deliberate mix of `%Y` (calendar year) with
`%V` (ISO week), exactly as in the source. -/
def fmtWeekKey (D : Date) : String :=
  String.mk [digitChar (D.year / 1000), digitChar (D.year / 100 % 10),
    digitChar (D.year / 10 % 10), digitChar (D.year % 10), '-', 'W',
    digitChar (isoWeekNum D / 10), digitChar (isoWeekNum D % 10)]

/-- The list `[n-1, n-2, ..., 0]`, i.e. Python's `range(n-1, -1, -1)`. -/
def countdown : ℕ → List ℕ
  | 0 => []
  | n + 1 => n :: countdown n

/-- Left-to-right effectful map over `Option`: the whole list, or `none`
as soon as one element fails (a raised exception inside a Python list
comprehension aborts it). -/
def mapOpt (f : α → Option β) : List α → Option (List β)
  | [] => some []
  | x :: xs =>
    match f x with
    | none => none
    | some y => (mapOpt f xs).map (y :: ·)

/-- The 30 daily bucket dates `[now - 29d, ..., now]`, oldest first;
`none` models the `OverflowError` when the window leaves the `datetime`
range (caught further up). -/
def dailyDates (now : Date) : Option (List Date) :=
  mapOpt (fun x => subDays x now) (countdown 30)

/-- The 12 weekly bucket dates: the Monday of the current week and the 11
preceding Mondays, oldest first. -/
def weeklyDates (now : Date) : Option (List Date) :=
  (subDays (weekday now) now).bind fun cur =>
    mapOpt (fun x => subDays (7 * x) cur) (countdown 12)

/-- The 12 monthly buckets `(year, month)`, oldest first, with the
source's explicit year rollover (`month -= i; if month <= 0: year -= 1;
month += 12`); `none` models the `ValueError` of `replace(year=0)`. -/
def monthlyPairs (now : Date) : Option (List (ℕ × ℕ)) :=
  mapOpt (fun i =>
      if i < now.month then some (now.year, now.month - i)
      else if 2 ≤ now.year then some (now.year - 1, now.month + 12 - i)
      else none)
    (countdown 12)

/-- One period granularity of the time series. -/
inductive Period
  | daily
  | weekly
  | monthly
deriving DecidableEq

/-- The ordered bucket-key list (`date_keys` in the source) for a
granularity, or `none` when its generation raises. -/
def bucketKeys (p : Period) (now : Date) : Option (List String) :=
  match p with
  | .daily => (dailyDates now).map (·.map fmtDate)
  | .weekly => (weeklyDates now).map (·.map fmtWeekKey)
  | .monthly => (monthlyPairs now).map (·.map (fun ym => fmtMonthKey ym.1 ym.2))

/-- The bucket key the aggregation loop derives for a record's parsed
date (`strftime` with the same format string as the bucketer). -/
def keyFor (p : Period) (d : Date) : String :=
  match p with
  | .daily => fmtDate d
  | .weekly => fmtWeekKey d
  | .monthly => fmtMonthKey d.year d.month

/-- A record's `amount` field: a Python number (`num`), or a string that
`float()` would parse to the given rational (`str (some q)`), or a string
`float()` rejects (`str none`).  Python `+` (used by `sum` and the
`defaultdict` accumulation) succeeds only on numbers; `float()` also
accepts numeric strings. -/
inductive Amount
  | num (q : ℚ)
  | str (v : Option ℚ)
deriving DecidableEq

/-- Computes `float(amount)`, or `none` for the `ValueError` of a non-numeric
string. -/
def floatOfAmount : Amount → Option ℚ
  | .num q => some q
  | .str v => v

/-- Computes `acc + amount` for a float `acc`, or `none` for the `TypeError` of
adding a string to a float. -/
def addAmount (acc : ℚ) : Amount → Option ℚ
  | .num q => some (acc + q)
  | .str _ => none

/-- A record's `created_at` field: an ISO-8601 timestamp whose calendar
date is `d`, either ending in a literal `Z` zone marker (`zsuffix =
true`) or already carrying an explicit offset, or a malformed string.
(Times of day and offsets never influence the aggregation — `strftime`
reads the parsed calendar fields — so only the date is modelled.) -/
inductive CreatedAt
  | iso (d : Date) (zsuffix : Bool)
  | malformed
deriving DecidableEq

/-- Performs `s.replace('Z', '+00:00')`: rewrites the trailing `Z` marker into an
explicit offset. -/
def replaceZ : CreatedAt → CreatedAt
  | .iso d _ => .iso d false
  | .malformed => .malformed

/-- Models `datetime.fromisoformat`: accepts explicit offsets, rejects the bare
`Z` suffix and malformed strings. -/
def fromisoformat : CreatedAt → Option Date
  | .iso d false => some d
  | _ => none

/-- The per-record timestamp parse of the aggregation loop:
`datetime.fromisoformat(date_str.replace('Z', '+00:00'))`. -/
def parseCreated (c : CreatedAt) : Option Date := fromisoformat (replaceZ c)

/-- An expense record as the aggregation core reads it. -/
structure Record where
  name : String
  amount : Amount
  category : String
  created_at : CreatedAt
deriving DecidableEq

/-- Accumulation state of the aggregation loop: the unfiltered per-key
totals dict and the per-category per-key totals dict, modelled as (total)
lookup functions (all keys start at 0, as in the zero-initialisation). -/
structure TSAcc where
  ts : String → ℚ
  cs : String → String → ℚ

/-- One iteration of the `for expense in expenses` loop of
`get_time_series_data`: parse the timestamp, convert the amount, derive
the key; on either failure skip the record (`except: continue`); only
accumulate if the key is inside the window, and into the category series
only if the category is among the initialised ones. -/
def tsStep (keys : List String) (p : Period) (cats : Finset String)
    (acc : TSAcc) (e : Record) : TSAcc :=
  match parseCreated e.created_at, floatOfAmount e.amount with
  | some d, some a =>
    let key := keyFor p d
    if key ∈ keys then
      { ts := fun k => if k = key then acc.ts k + a else acc.ts k
        cs :=
          if e.category ∈ cats then
            fun c k => if c = e.category ∧ k = key then acc.cs c k + a else acc.cs c k
          else acc.cs }
    else acc
  | _, _ => acc

/-- Result of `get_time_series_data`: the ordered `total` series, and the
`by_category` dict modelled as its key set (`catKeys`) plus a lookup
returning the series of a category (the all-zero series off `catKeys`). -/
structure TSResult where
  total : List (String × ℚ)
  catKeys : Finset String
  by_category : String → List (String × ℚ)

/-- Mirrors `get_time_series_data(expenses, period)` at reference instant `now`:
generate the bucket keys (any failure there is caught and yields the
empty structure), initialise every key to zero for the unfiltered series
and for each category observed in the records, fold the loop body over
the records, and emit the series in bucket-key order. -/
def getTimeSeriesData (expenses : List Record) (p : Period) (now : Date) : TSResult :=
  match bucketKeys p now with
  | none => { total := [], catKeys := ∅, by_category := fun _ => [] }
  | some keys =>
    let cats : Finset String := (expenses.map (·.category)).toFinset
    let acc := expenses.foldl (tsStep keys p cats) ⟨fun _ => 0, fun _ _ => 0⟩
    { total := keys.map fun k => (k, acc.ts k)
      catKeys := cats
      by_category := fun c => keys.map fun k => (k, acc.cs c k) }

/-- Stable insertion into a list sorted descending by `f`: the new
element goes after every element whose key is ≥ its own. -/
def insertDescBy [LinearOrder β] (f : α → β) (x : α) : List α → List α
  | [] => [x]
  | h :: t => if f x ≤ f h then h :: insertDescBy f x t else x :: h :: t

/-- The stable descending sort by key `f` — extensionally the unique
stable sort, hence Python's `sorted(·, key=f, reverse=True)`. -/
def sortDescBy [LinearOrder β] (f : α → β) (l : List α) : List α :=
  l.foldl (fun acc x => insertDescBy f x acc) []

/-- Mirrors `get_top_categories(category_totals, limit=5)`: the `.items()` pairs
sorted by amount descending (stable), truncated to `limit`. -/
def getTopCategories (l : List (String × ℚ)) (limit : ℕ := 5) : List (String × ℚ) :=
  (sortDescBy (·.2) l).take limit

/-- Mirrors `sum(expense['amount'] for expense in expenses)`: `0` plus each
amount in turn; a single non-number raises (`none`). -/
def sumAmounts (l : List Record) : Option ℚ :=
  l.foldlM (fun acc e => addAmount acc e.amount) 0

/-- Mirrors `category_totals[cat] += amount` on an insertion-ordered dict,
modelled as an association list: update in place, append new keys. -/
def addAssoc : List (String × ℚ) → String → ℚ → List (String × ℚ)
  | [], c, a => [(c, a)]
  | (c', v) :: t, c, a =>
    if c' = c then (c', v + a) :: t else (c', v) :: addAssoc t c a

/-- The category-totals `defaultdict(float)` loop; raises (`none`) on a
non-numeric amount, and its `.items()` order is first-encounter order. -/
def categoryTotals (l : List Record) : Option (List (String × ℚ)) :=
  l.foldlM
    (fun acc e =>
      match e.amount with
      | .num q => some (addAssoc acc e.category q)
      | .str _ => none)
    []

/-- The composed `dashboard_data` structure (`time_series` flattened into
the three granularity fields). -/
structure Dashboard where
  total_expenses : ℚ
  category_totals : List (String × ℚ)
  top_categories : List (String × ℚ)
  tsDaily : TSResult
  tsWeekly : TSResult
  tsMonthly : TSResult
  recent_expenses : List Record
  avg_daily_expense : ℚ
  current_month_total : ℚ
  mom_growth : ℚ

/-- The empty time-series structure. -/
def emptyTS : TSResult := ⟨[], ∅, fun _ => []⟩

/-- The canonical empty summary initialised at the top of
`get_dashboard_data` and returned when there are no records. -/
def emptyDashboard : Dashboard := ⟨0, [], [], emptyTS, emptyTS, emptyTS, [], 0, 0, 0⟩

/-- Renders `utcnow().strftime('%Y-%m')`. -/
def currentMonthKey (now : Date) : String := fmtMonthKey now.year now.month

/-- The month-over-month block: with at least two monthly entries,
`(last - second_last) / second_last * 100` guarded by
`second_last > 0`; otherwise the initial `0`. -/
def momOf (monthly : List (String × ℚ)) : ℚ :=
  match monthly.reverse with
  | c :: p :: _ => if 0 < p.2 then (c.2 - p.2) / p.2 * 100 else 0
  | _ => 0

/-- Mirrors `get_dashboard_data()`, with the Supabase fetch and the clock
injected: `fetch = none` models a falsy result / missing `data`
attribute (the early `return None` branches); `some none` a null
`result.data`; `some (some records)` a delivered record list.  The outer
`except` turns any exception inside the calculation block into a `None`
return, so the function is total with `Option` failure. -/
def getDashboardData (fetch : Option (Option (List Record))) (now : Date) :
    Option Dashboard :=
  match fetch with
  | none => none
  | some none => some emptyDashboard
  | some (some []) => some emptyDashboard
  | some (some (x :: xs)) =>
    match sumAmounts (x :: xs), categoryTotals (x :: xs) with
    | some tot, some cts =>
      let top := getTopCategories cts
      let daily := getTimeSeriesData (x :: xs) .daily now
      let weekly := getTimeSeriesData (x :: xs) .weekly now
      let monthly := getTimeSeriesData (x :: xs) .monthly now
      let recent := (x :: xs).take 5
      let avg : ℚ :=
        if daily.total = [] then 0
        else ((daily.total.map (·.2)).sum) / (daily.total.length : ℚ)
      let cur := ((monthly.total.filter fun kv => kv.1 = currentMonthKey now).map (·.2)).sum
      some ⟨tot, cts, top, daily, weekly, monthly, recent, avg, cur, momOf monthly.total⟩
    | _, _ => none

/-- Modelled from the spec: the composer is required to return the input
records "sorted by `created_at` descending, first 5" (a defensive
resort).  The sort key orders ISO timestamps by their calendar date;
malformed timestamps sort last. -/
def createdSortKey : CreatedAt → ℕ
  | .iso d _ => toOrdinal d
  | .malformed => 0

/-- Modelled from the spec: `recent_records = sort desc by created_at,
take 5`. -/
def specRecentExpenses (l : List Record) : List Record :=
  (sortDescBy (fun r => createdSortKey r.created_at) l).take 5

/-! ### Calendar arithmetic lemmas -/

theorem isLeap_iff (y : ℕ) :
    isLeap y = true ↔ ((y % 4 = 0 ∧ ¬ y % 100 = 0) ∨ y % 400 = 0) := by
  simp [isLeap]

theorem daysInMonthB_pos :
    ∀ leap : Bool, ∀ m, m < 13 → 1 ≤ m → 1 ≤ daysInMonthB leap m := by decide

theorem daysBeforeMonthB_step :
    ∀ leap : Bool, ∀ m, m < 13 → 2 ≤ m →
      daysBeforeMonthB leap m = daysBeforeMonthB leap (m - 1) + daysInMonthB leap (m - 1) := by
  decide

theorem daysBeforeMonthB_add_le :
    ∀ leap : Bool, ∀ m, m < 13 → 1 ≤ m →
      daysBeforeMonthB leap m + daysInMonthB leap m = 365 + (if leap then 1 else 0) ∨
      daysBeforeMonthB leap m + daysInMonthB leap m < 365 := by
  decide

theorem daysInYear_bounds (y : ℕ) : 365 ≤ daysInYear y ∧ daysInYear y ≤ 366 := by
  unfold daysInYear; split <;> omega

theorem daysBeforeYear_step (y : ℕ) (hy : 1 ≤ y) :
    daysBeforeYear (y + 1) = daysBeforeYear y + daysInYear y := by
  have h := isLeap_iff y
  unfold daysBeforeYear daysInYear
  by_cases hb : isLeap y = true
  · rw [if_pos hb]
    rw [hb] at h
    simp only [true_iff] at h
    rcases h with ⟨h4, h100⟩ | h400 <;> omega
  · rw [if_neg hb]
    rw [eq_false hb] at h
    simp only [false_iff] at h
    push_neg at h
    by_cases h4 : y % 4 = 0
    · have h100 := h.1 h4
      have h400 := h.2
      omega
    · have h400 := h.2
      omega

theorem daysBeforeYear_mono {y y' : ℕ} (h : y ≤ y') :
    daysBeforeYear y ≤ daysBeforeYear y' := by
  unfold daysBeforeYear
  have h4 : (y - 1) / 4 ≤ (y' - 1) / 4 := Nat.div_le_div_right (by omega)
  have h400 : (y - 1) / 400 ≤ (y' - 1) / 400 := Nat.div_le_div_right (by omega)
  have h100a : (y - 1) / 100 * 100 ≤ y - 1 := Nat.div_mul_le_self _ _
  have h100b : (y' - 1) / 100 * 100 ≤ y' - 1 := Nat.div_mul_le_self _ _
  omega

theorem doy_bounds (D : Date) (h : Valid D) :
    1 ≤ doy D ∧ doy D ≤ daysInYear D.year := by
  obtain ⟨h1, h2, h3, h4, h5, h6⟩ := h
  have hd := daysBeforeMonthB_add_le (isLeap D.year) D.month (by omega) h3
  unfold doy daysInYear
  cases hL : isLeap D.year <;> simp [hL] at hd h6 ⊢ <;> omega

theorem toOrdinal_pos (D : Date) (h : Valid D) : 1 ≤ toOrdinal D := by
  have := doy_bounds D h
  unfold toOrdinal
  omega

theorem toOrdinal_min (D : Date) (h : Valid D) (h2 : 2 ≤ toOrdinal D) :
    ¬(D.year = 1 ∧ D.month = 1 ∧ D.day = 1) := by
  rintro ⟨hy, hm, hd⟩
  have : toOrdinal D = 1 := by
    unfold toOrdinal doy daysBeforeYear
    rw [hy, hm, hd]
    simp [daysBeforeMonthB]
  omega

theorem valid_mk {y m d : ℕ} (h1 : 1 ≤ y) (h2 : y ≤ 9999) (h3 : 1 ≤ m)
    (h4 : m ≤ 12) (h5 : 1 ≤ d) (h6 : d ≤ daysInMonthB (isLeap y) m) :
    Valid ⟨y, m, d⟩ :=
  ⟨h1, h2, h3, h4, h5, h6⟩

theorem doy_mk (y m d : ℕ) : doy ⟨y, m, d⟩ = daysBeforeMonthB (isLeap y) m + d := rfl

theorem toOrdinal_mk (y m d : ℕ) :
    toOrdinal ⟨y, m, d⟩ = daysBeforeYear y + (daysBeforeMonthB (isLeap y) m + d) := rfl

theorem toOrdinal_eq (D : Date) : toOrdinal D = daysBeforeYear D.year + doy D := rfl

theorem prevDay_spec (D : Date) (h : Valid D)
    (hmin : ¬(D.year = 1 ∧ D.month = 1 ∧ D.day = 1)) :
    ∃ D', prevDay D = some D' ∧ Valid D' ∧ toOrdinal D' + 1 = toOrdinal D ∧
      ((2 ≤ doy D ∧ D'.year = D.year ∧ doy D' + 1 = doy D) ∨
       (doy D = 1 ∧ D'.year + 1 = D.year ∧ doy D' = daysInYear D'.year)) := by
  obtain ⟨h1, h2, h3, h4, h5, h6⟩ := h
  unfold prevDay
  by_cases hd : 2 ≤ D.day
  · rw [if_pos hd]
    refine ⟨⟨D.year, D.month, D.day - 1⟩, rfl,
      valid_mk h1 h2 h3 h4 (by omega) (by omega), ?_, Or.inl ⟨?_, rfl, ?_⟩⟩
    · rw [toOrdinal_mk, toOrdinal_eq]
      unfold doy
      omega
    · unfold doy
      omega
    · rw [doy_mk]
      unfold doy
      omega
  · by_cases hm : 2 ≤ D.month
    · rw [if_neg hd, if_pos hm]
      have hstep := daysBeforeMonthB_step (isLeap D.year) D.month (by omega) hm
      have hpos := daysInMonthB_pos (isLeap D.year) (D.month - 1) (by omega) (by omega)
      refine ⟨⟨D.year, D.month - 1, daysInMonthB (isLeap D.year) (D.month - 1)⟩, rfl,
        valid_mk h1 h2 (by omega) (by omega) hpos le_rfl, ?_, Or.inl ⟨?_, rfl, ?_⟩⟩
      · rw [toOrdinal_mk, toOrdinal_eq]
        unfold doy
        omega
      · unfold doy
        have := daysInMonthB_pos (isLeap D.year) D.month (by omega) h3
        omega
      · rw [doy_mk]
        unfold doy
        omega
    · have hy : 2 ≤ D.year := by
        rcases Nat.lt_or_ge D.year 2 with hy | hy
        · exact absurd ⟨by omega, by omega, by omega⟩ hmin
        · exact hy
      rw [if_neg hd, if_neg hm, if_pos hy]
      have hstep := daysBeforeYear_step (D.year - 1) (by omega)
      rw [show D.year - 1 + 1 = D.year by omega] at hstep
      have hm1 : D.month = 1 := by omega
      have hd1 : D.day = 1 := by omega
      have hdoy1 : doy D = 1 := by
        unfold doy
        rw [hm1, hd1]
        simp [daysBeforeMonthB]
      refine ⟨⟨D.year - 1, 12, 31⟩, rfl,
        valid_mk (by omega) (by omega) (by omega) (by omega) (by omega)
          (by cases hL : isLeap (D.year - 1) <;> simp [daysInMonthB, hL]), ?_,
        Or.inr ⟨hdoy1, by show D.year - 1 + 1 = D.year; omega, ?_⟩⟩
      · rw [toOrdinal_mk, toOrdinal_eq, hdoy1]
        have : daysBeforeMonthB (isLeap (D.year - 1)) 12 + 31 = daysInYear (D.year - 1) := by
          unfold daysBeforeMonthB daysInYear
          cases hL : isLeap (D.year - 1) <;> simp [hL]
        omega
      · rw [doy_mk]
        show daysBeforeMonthB (isLeap (D.year - 1)) 12 + 31 = daysInYear (D.year - 1)
        unfold daysBeforeMonthB daysInYear
        cases hL : isLeap (D.year - 1) <;> simp [hL]

theorem subDays_parts (k : ℕ) (D : Date) (h : Valid D) (hk : k ≤ 300)
    (hord : k + 1 ≤ toOrdinal D) :
    ∃ D', subDays k D = some D' ∧ Valid D' ∧ toOrdinal D' + k = toOrdinal D ∧
      ((D'.year = D.year ∧ doy D' + k = doy D) ∨
       (D'.year + 1 = D.year ∧ doy D' + k = doy D + daysInYear D'.year)) := by
  induction k generalizing D with
  | zero => exact ⟨D, rfl, h, by omega, Or.inl ⟨rfl, by omega⟩⟩
  | succ k ih =>
    have hmin : ¬(D.year = 1 ∧ D.month = 1 ∧ D.day = 1) :=
      toOrdinal_min D h (by omega)
    obtain ⟨D1, hD1, hv1, hord1, hcase1⟩ := prevDay_spec D h hmin
    obtain ⟨D', hD', hv', hord', hcase'⟩ := ih D1 hv1 (by omega) (by omega)
    refine ⟨D', ?_, hv', by omega, ?_⟩
    · show (prevDay D).bind (subDays k) = some D'
      rw [hD1]
      exact hD'
    · have hb1 := doy_bounds D h
      have hb1' := doy_bounds D1 hv1
      have hb' := doy_bounds D' hv'
      have hy' := daysInYear_bounds D'.year
      have hy1 := daysInYear_bounds D1.year
      rcases hcase1 with ⟨hd1, hy1e, hdoy1⟩ | ⟨hd1, hy1e, hdoy1⟩
      · rcases hcase' with ⟨hye, hdoye⟩ | ⟨hye, hdoye⟩
        · exact Or.inl ⟨by omega, by omega⟩
        · exact Or.inr ⟨by omega, by omega⟩
      · rcases hcase' with ⟨hye, hdoye⟩ | ⟨hye, hdoye⟩
        · have hcongr : daysInYear D'.year = daysInYear D1.year := congrArg daysInYear hye
          exact Or.inr ⟨by omega, by omega⟩
        · exfalso
          omega

theorem weekday_lt (D : Date) : weekday D < 7 := Nat.mod_lt _ (by omega)

theorem daysBeforeYear_one : daysBeforeYear 1 = 0 := rfl

theorem isoParts_spec (D : Date) (h : Valid D) :
    1 ≤ (isoParts D).1 ∧ 1 ≤ (isoParts D).2 ∧
      (isoParts D).2 ≤ daysInYear (isoParts D).1 ∧
      daysBeforeYear (isoParts D).1 + (isoParts D).2 + weekday D = toOrdinal D + 3 := by
  have hb := doy_bounds D h
  have hw := weekday_lt D
  have hy1 : 1 ≤ D.year := h.1
  unfold isoParts
  by_cases hc1 : doy D + 3 < weekday D + 1
  · rw [if_pos hc1]
    have hy2 : 2 ≤ D.year := by
      by_contra hy2
      have hyone : D.year = 1 := by omega
      have : weekday D ≤ doy D - 1 := by
        unfold weekday
        rw [toOrdinal_eq, hyone, daysBeforeYear_one]
        calc (0 + doy D - 1) % 7 ≤ 0 + doy D - 1 := Nat.mod_le _ _
          _ = doy D - 1 := by omega
      omega
    have hstep := daysBeforeYear_step (D.year - 1) (by omega)
    rw [show D.year - 1 + 1 = D.year by omega] at hstep
    have hLb := daysInYear_bounds (D.year - 1)
    refine ⟨by show 1 ≤ D.year - 1; omega,
      by show 1 ≤ doy D + 3 + daysInYear (D.year - 1) - weekday D; omega,
      by show doy D + 3 + daysInYear (D.year - 1) - weekday D ≤ daysInYear (D.year - 1); omega, ?_⟩
    show daysBeforeYear (D.year - 1) + (doy D + 3 + daysInYear (D.year - 1) - weekday D) +
      weekday D = toOrdinal D + 3
    rw [toOrdinal_eq]
    omega
  · by_cases hc2 : daysInYear D.year < doy D + 3 - weekday D
    · rw [if_neg hc1, if_pos hc2]
      have hstep := daysBeforeYear_step D.year (by omega)
      have hLb := daysInYear_bounds D.year
      have hLb1 := daysInYear_bounds (D.year + 1)
      refine ⟨by show 1 ≤ D.year + 1; omega,
        by show 1 ≤ doy D + 3 - weekday D - daysInYear D.year; omega,
        by show doy D + 3 - weekday D - daysInYear D.year ≤ daysInYear (D.year + 1); omega, ?_⟩
      show daysBeforeYear (D.year + 1) + (doy D + 3 - weekday D - daysInYear D.year) +
        weekday D = toOrdinal D + 3
      rw [toOrdinal_eq]
      omega
    · rw [if_neg hc1, if_neg hc2]
      refine ⟨by show 1 ≤ D.year; omega,
        by show 1 ≤ doy D + 3 - weekday D; omega,
        by show doy D + 3 - weekday D ≤ daysInYear D.year; omega, ?_⟩
      show daysBeforeYear D.year + (doy D + 3 - weekday D) + weekday D = toOrdinal D + 3
      rw [toOrdinal_eq]
      omega

theorem isoWeekNum_le (D : Date) (h : Valid D) : isoWeekNum D ≤ 53 := by
  obtain ⟨-, h2, h3, -⟩ := isoParts_spec D h
  have := daysInYear_bounds (isoParts D).1
  unfold isoWeekNum
  omega

theorem isoWeekNum_pos (D : Date) : 1 ≤ isoWeekNum D := by
  unfold isoWeekNum
  omega

theorem isoWeekNum_ne (m1 m2 : Date) (h1 : Valid m1) (h2 : Valid m2)
    (hw1 : weekday m1 = 0) (hw2 : weekday m2 = 0) (k : ℕ) (hk1 : 1 ≤ k) (hk2 : k ≤ 11)
    (hord : toOrdinal m1 + 7 * k = toOrdinal m2) :
    isoWeekNum m1 ≠ isoWeekNum m2 := by
  obtain ⟨hy1, hp1, hle1, heq1⟩ := isoParts_spec m1 h1
  obtain ⟨hy2, hp2, hle2, heq2⟩ := isoParts_spec m2 h2
  rw [hw1] at heq1
  rw [hw2] at heq2
  have hL1 := daysInYear_bounds (isoParts m1).1
  have hL2 := daysInYear_bounds (isoParts m2).1
  unfold isoWeekNum
  rcases Nat.lt_trichotomy (isoParts m1).1 (isoParts m2).1 with hlt | heqy | hgt
  · rcases Nat.lt_or_ge (isoParts m2).1 ((isoParts m1).1 + 2) with hone | htwo
    · -- consecutive Thursday years
      have hyy : (isoParts m2).1 = (isoParts m1).1 + 1 := by omega
      have hstep := daysBeforeYear_step (isoParts m1).1 (by omega)
      rw [← hyy] at hstep
      omega
    · -- two or more years apart: impossible within 77 days
      have hs1 := daysBeforeYear_step (isoParts m1).1 (by omega)
      have hs2 := daysBeforeYear_step ((isoParts m1).1 + 1) (by omega)
      rw [show (isoParts m1).1 + 1 + 1 = (isoParts m1).1 + 2 by omega] at hs2
      have hmono := daysBeforeYear_mono htwo
      have hLa := daysInYear_bounds (isoParts m1).1
      have hLb := daysInYear_bounds ((isoParts m1).1 + 1)
      omega
  · -- same Thursday year: day-of-years differ by exactly 7k
    rw [heqy] at heq1
    omega
  · -- the later Monday cannot have an earlier Thursday year
    have hstep := daysBeforeYear_step (isoParts m2).1 (by omega)
    have hmono := daysBeforeYear_mono (show (isoParts m2).1 + 1 ≤ (isoParts m1).1 by omega)
    have hLb := daysInYear_bounds (isoParts m2).1
    omega

/-! ### Key-format injectivity -/

theorem digitChar_inj :
    ∀ a, a < 10 → ∀ b, b < 10 → digitChar a = digitChar b → a = b := by decide

theorem fmtDate_inj (D1 D2 : Date) (h1 : Valid D1) (h2 : Valid D2)
    (h : fmtDate D1 = fmtDate D2) : D1 = D2 := by
  unfold fmtDate at h
  injection h with h
  simp only [List.cons.injEq, and_true] at h
  obtain ⟨e1, e2, e3, e4, -, e5, e6, -, e7, e8⟩ := h
  obtain ⟨-, hy1, hm1a, hm1b, -, hd1⟩ := h1
  obtain ⟨-, hy2, hm2a, hm2b, -, hd2⟩ := h2
  have hdim1 : daysInMonthB (isLeap D1.year) D1.month ≤ 31 := by
    have : ∀ leap : Bool, ∀ m, m < 13 → daysInMonthB leap m ≤ 31 := by decide
    exact this _ _ (by omega)
  have hdim2 : daysInMonthB (isLeap D2.year) D2.month ≤ 31 := by
    have : ∀ leap : Bool, ∀ m, m < 13 → daysInMonthB leap m ≤ 31 := by decide
    exact this _ _ (by omega)
  have q1 := digitChar_inj _ (by omega) _ (by omega) e1
  have q2 := digitChar_inj _ (by omega) _ (by omega) e2
  have q3 := digitChar_inj _ (by omega) _ (by omega) e3
  have q4 := digitChar_inj _ (by omega) _ (by omega) e4
  have q5 := digitChar_inj _ (by omega) _ (by omega) e5
  have q6 := digitChar_inj _ (by omega) _ (by omega) e6
  have q7 := digitChar_inj _ (by omega) _ (by omega) e7
  have q8 := digitChar_inj _ (by omega) _ (by omega) e8
  have hy : D1.year = D2.year := by omega
  have hm : D1.month = D2.month := by omega
  have hd : D1.day = D2.day := by omega
  cases D1
  cases D2
  simp_all

theorem fmtMonthKey_inj (y1 m1 y2 m2 : ℕ) (hy1 : y1 ≤ 9999) (hm1 : m1 ≤ 99)
    (hy2 : y2 ≤ 9999) (hm2 : m2 ≤ 99) (h : fmtMonthKey y1 m1 = fmtMonthKey y2 m2) :
    y1 = y2 ∧ m1 = m2 := by
  unfold fmtMonthKey at h
  injection h with h
  simp only [List.cons.injEq, and_true] at h
  obtain ⟨e1, e2, e3, e4, -, e5, e6⟩ := h
  have q1 := digitChar_inj _ (by omega) _ (by omega) e1
  have q2 := digitChar_inj _ (by omega) _ (by omega) e2
  have q3 := digitChar_inj _ (by omega) _ (by omega) e3
  have q4 := digitChar_inj _ (by omega) _ (by omega) e4
  have q5 := digitChar_inj _ (by omega) _ (by omega) e5
  have q6 := digitChar_inj _ (by omega) _ (by omega) e6
  constructor <;> omega

theorem fmtWeekKey_week_inj (D1 D2 : Date) (h1 : Valid D1) (h2 : Valid D2)
    (h : fmtWeekKey D1 = fmtWeekKey D2) : isoWeekNum D1 = isoWeekNum D2 := by
  have w1 := isoWeekNum_le D1 h1
  have w2 := isoWeekNum_le D2 h2
  unfold fmtWeekKey at h
  injection h with h
  simp only [List.cons.injEq, and_true, true_and] at h
  obtain ⟨-, -, -, -, e5, e6⟩ := h
  have q5 := digitChar_inj _ (by omega) _ (by omega) e5
  have q6 := digitChar_inj _ (by omega) _ (by omega) e6
  omega

/-! ### Bucketer lemmas -/

theorem countdown_length (n : ℕ) : (countdown n).length = n := by
  induction n with
  | zero => rfl
  | succ n ih => simp [countdown, ih]

theorem countdown_getD (n i : ℕ) (h : i < n) : (countdown n).getD i 0 = n - 1 - i := by
  induction n generalizing i with
  | zero => omega
  | succ n ih =>
    cases i with
    | zero => simp [countdown]
    | succ i =>
      simp only [countdown, List.getD_cons_succ]
      rw [ih i (by omega)]
      omega

theorem mapOpt_isSome (f : α → Option β) (l : List α) (h : ∀ x ∈ l, f x ≠ none) :
    ∃ out, mapOpt f l = some out := by
  induction l with
  | nil => exact ⟨[], rfl⟩
  | cons x xs ih =>
    obtain ⟨out, hout⟩ := ih fun y hy => h y (List.mem_cons_of_mem _ hy)
    cases hfx : f x with
    | none => exact absurd hfx (h x (List.mem_cons_self _ _))
    | some y => exact ⟨y :: out, by simp [mapOpt, hfx, hout]⟩

theorem mapOpt_length (f : α → Option β) (l : List α) (out : List β)
    (h : mapOpt f l = some out) : out.length = l.length := by
  induction l generalizing out with
  | nil => simp [mapOpt] at h; simp [← h]
  | cons x xs ih =>
    unfold mapOpt at h
    cases hfx : f x with
    | none => rw [hfx] at h; exact absurd h (by simp)
    | some y =>
      rw [hfx] at h
      cases hrest : mapOpt f xs with
      | none => rw [hrest] at h; exact absurd h (by simp)
      | some out' =>
        rw [hrest] at h
        simp at h
        rw [← h]
        simp [ih out' hrest]

theorem mapOpt_getD (f : α → Option β) (l : List α) (out : List β) (d1 : α) (d2 : β)
    (h : mapOpt f l = some out) (i : ℕ) (hi : i < l.length) :
    f (l.getD i d1) = some (out.getD i d2) := by
  induction l generalizing out i with
  | nil => simp at hi
  | cons x xs ih =>
    unfold mapOpt at h
    cases hfx : f x with
    | none => rw [hfx] at h; exact absurd h (by simp)
    | some y =>
      rw [hfx] at h
      cases hrest : mapOpt f xs with
      | none => rw [hrest] at h; exact absurd h (by simp)
      | some out' =>
        rw [hrest] at h
        simp at h
        subst h
        cases i with
        | zero => simpa using hfx
        | succ i => simpa using ih out' hrest i (by simpa using hi)

theorem dailyDates_spec (now : Date) (h : Valid now) (h30 : 30 ≤ toOrdinal now) :
    ∃ ds, dailyDates now = some ds ∧ ds.length = 30 ∧
      ∀ i, i < 30 → Valid (ds.getD i ⟨0, 0, 0⟩) ∧
        toOrdinal (ds.getD i ⟨0, 0, 0⟩) + (29 - i) = toOrdinal now := by
  have hsome : ∀ x ∈ countdown 30, subDays x now ≠ none := by
    intro x hx
    have hxlt : x < 30 := by
      have hlen : ∀ n x, x ∈ countdown n → x < n := by
        intro n
        induction n with
        | zero => intro x hx; simp [countdown] at hx
        | succ n ih =>
          intro x hx
          rcases List.mem_cons.mp hx with rfl | hx
          · omega
          · exact Nat.lt_succ_of_lt (ih x hx)
      exact hlen 30 x hx
    obtain ⟨D', hD', -, -⟩ := subDays_parts x now h (by omega) (by omega)
    simp [hD']
  obtain ⟨ds, hds⟩ := mapOpt_isSome _ _ hsome
  refine ⟨ds, hds, ?_, ?_⟩
  · rw [mapOpt_length _ _ _ hds, countdown_length]
  · intro i hi
    have hpos := mapOpt_getD _ _ _ 0 ⟨0, 0, 0⟩ hds i (by rw [countdown_length]; omega)
    rw [countdown_getD 30 i hi] at hpos
    obtain ⟨D', hD', hv', hord', -⟩ := subDays_parts (30 - 1 - i) now h (by omega) (by omega)
    rw [hD'] at hpos
    have : D' = ds.getD i ⟨0, 0, 0⟩ := by
      injection hpos
    rw [← this]
    exact ⟨hv', by omega⟩

theorem countdown_mem {n x : ℕ} (hx : x ∈ countdown n) : x < n := by
  induction n with
  | zero => simp [countdown] at hx
  | succ n ih =>
    rcases List.mem_cons.mp hx with rfl | hx
    · omega
    · exact Nat.lt_succ_of_lt (ih hx)

theorem weeklyDates_spec (now : Date) (h : Valid now) (h84 : 84 ≤ toOrdinal now) :
    ∃ ws, weeklyDates now = some ws ∧ ws.length = 12 ∧
      ∀ i, i < 12 → Valid (ws.getD i ⟨0, 0, 0⟩) ∧ weekday (ws.getD i ⟨0, 0, 0⟩) = 0 ∧
        toOrdinal (ws.getD i ⟨0, 0, 0⟩) + 7 * (11 - i) + weekday now = toOrdinal now := by
  have hw := weekday_lt now
  obtain ⟨cur, hcur, hvc, hordc, -⟩ :=
    subDays_parts (weekday now) now h (by omega) (by omega)
  have hsome : ∀ x ∈ countdown 12, subDays (7 * x) cur ≠ none := by
    intro x hx
    have hxlt := countdown_mem hx
    obtain ⟨D', hD', -, -⟩ := subDays_parts (7 * x) cur hvc (by omega) (by omega)
    simp [hD']
  obtain ⟨ws, hws⟩ := mapOpt_isSome _ _ hsome
  refine ⟨ws, by unfold weeklyDates; rw [hcur]; exact hws, ?_, ?_⟩
  · rw [mapOpt_length _ _ _ hws, countdown_length]
  · intro i hi
    have hpos := mapOpt_getD _ _ _ 0 ⟨0, 0, 0⟩ hws i (by rw [countdown_length]; omega)
    rw [countdown_getD 12 i hi] at hpos
    obtain ⟨D', hD', hv', hord', -⟩ :=
      subDays_parts (7 * (12 - 1 - i)) cur hvc (by omega) (by omega)
    rw [hD'] at hpos
    have hDeq : D' = ws.getD i ⟨0, 0, 0⟩ := by injection hpos
    rw [← hDeq]
    refine ⟨hv', ?_, by omega⟩
    unfold weekday at *
    omega

theorem monthlyPairs_spec (now : Date) (h : Valid now) (h2 : 2 ≤ now.year) :
    ∃ ps, monthlyPairs now = some ps ∧ ps.length = 12 ∧
      ∀ i, i < 12 →
        ps.getD i (0, 0) =
          if 11 - i < now.month then (now.year, now.month - (11 - i))
          else (now.year - 1, now.month + 12 - (11 - i)) := by
  have hsome : ∀ x ∈ countdown 12,
      (if x < now.month then some (now.year, now.month - x)
       else if 2 ≤ now.year then some (now.year - 1, now.month + 12 - x)
       else none) ≠ none := by
    intro x hx
    by_cases hxm : x < now.month
    · simp [hxm]
    · simp [hxm, h2]
  obtain ⟨ps, hps⟩ := mapOpt_isSome _ _ hsome
  refine ⟨ps, hps, ?_, ?_⟩
  · rw [mapOpt_length _ _ _ hps, countdown_length]
  · intro i hi
    have hpos := mapOpt_getD _ _ _ 0 (0, 0) hps i (by rw [countdown_length]; omega)
    rw [countdown_getD 12 i hi] at hpos
    by_cases hxm : 12 - 1 - i < now.month
    · rw [if_pos hxm] at hpos
      rw [if_pos (show 11 - i < now.month by omega)]
      injection hpos with hpos
      rw [← hpos, show 11 - i = 12 - 1 - i by omega]
    · rw [if_neg hxm, if_pos h2] at hpos
      rw [if_neg (show ¬ 11 - i < now.month by omega)]
      injection hpos with hpos
      rw [← hpos, show 11 - i = 12 - 1 - i by omega]

theorem toOrdinal_year2 (now : Date) (h : Valid now) (h2 : 2 ≤ now.year) :
    366 ≤ toOrdinal now := by
  have hb := doy_bounds now h
  have hmono := daysBeforeYear_mono h2
  have : daysBeforeYear 2 = 365 := rfl
  rw [toOrdinal_eq]
  omega

/-- C2, daily granularity, packaged: the generated date list and key
list, their lengths, chronological ascent and key distinctness. -/
theorem dailyBuckets_ok (now : Date) (h : Valid now) (h2 : 2 ≤ now.year) :
    ∃ ds, dailyDates now = some ds ∧ bucketKeys .daily now = some (ds.map fmtDate) ∧
      ds.length = 30 ∧ ds.Pairwise (fun a b => toOrdinal a < toOrdinal b) ∧
      (ds.map fmtDate).Nodup := by
  have h366 := toOrdinal_year2 now h h2
  obtain ⟨ds, hds, hlen, hpt⟩ := dailyDates_spec now h (by omega)
  refine ⟨ds, hds, by unfold bucketKeys; rw [hds]; rfl, hlen, ?_, ?_⟩
  · rw [List.pairwise_iff_getElem]
    intro i j hi hj hij
    rw [← List.getD_eq_getElem ds ⟨0, 0, 0⟩ hi, ← List.getD_eq_getElem ds ⟨0, 0, 0⟩ hj]
    obtain ⟨-, hoi⟩ := hpt i (by omega)
    obtain ⟨-, hoj⟩ := hpt j (by omega)
    omega
  · rw [List.Nodup, List.pairwise_map, List.pairwise_iff_getElem]
    intro i j hi hj hij
    rw [← List.getD_eq_getElem ds ⟨0, 0, 0⟩ hi, ← List.getD_eq_getElem ds ⟨0, 0, 0⟩ hj]
    obtain ⟨hvi, hoi⟩ := hpt i (by omega)
    obtain ⟨hvj, hoj⟩ := hpt j (by omega)
    intro heq
    have := fmtDate_inj _ _ hvi hvj heq
    rw [this] at hoi
    omega

/-- C2, weekly granularity, packaged. -/
theorem weeklyBuckets_ok (now : Date) (h : Valid now) (h2 : 2 ≤ now.year) :
    ∃ ws, weeklyDates now = some ws ∧ bucketKeys .weekly now = some (ws.map fmtWeekKey) ∧
      ws.length = 12 ∧ ws.Pairwise (fun a b => toOrdinal a < toOrdinal b) ∧
      (ws.map fmtWeekKey).Nodup := by
  have h366 := toOrdinal_year2 now h h2
  obtain ⟨ws, hws, hlen, hpt⟩ := weeklyDates_spec now h (by omega)
  refine ⟨ws, hws, by unfold bucketKeys; rw [hws]; rfl, hlen, ?_, ?_⟩
  · rw [List.pairwise_iff_getElem]
    intro i j hi hj hij
    rw [← List.getD_eq_getElem ws ⟨0, 0, 0⟩ hi, ← List.getD_eq_getElem ws ⟨0, 0, 0⟩ hj]
    obtain ⟨-, -, hoi⟩ := hpt i (by omega)
    obtain ⟨-, -, hoj⟩ := hpt j (by omega)
    omega
  · rw [List.Nodup, List.pairwise_map, List.pairwise_iff_getElem]
    intro i j hi hj hij
    rw [← List.getD_eq_getElem ws ⟨0, 0, 0⟩ hi, ← List.getD_eq_getElem ws ⟨0, 0, 0⟩ hj]
    obtain ⟨hvi, hwi, hoi⟩ := hpt i (by omega)
    obtain ⟨hvj, hwj, hoj⟩ := hpt j (by omega)
    intro heq
    refine isoWeekNum_ne _ _ hvi hvj hwi hwj (j - i) (by omega) (by omega) (by omega) ?_
    exact fmtWeekKey_week_inj _ _ hvi hvj heq

/-- C2, monthly granularity, packaged (the pair list is the `(year,
month)` sequence the source formats). -/
theorem monthlyBuckets_ok (now : Date) (h : Valid now) (h2 : 2 ≤ now.year) :
    ∃ ps, monthlyPairs now = some ps ∧
      bucketKeys .monthly now = some (ps.map fun ym => fmtMonthKey ym.1 ym.2) ∧
      ps.length = 12 ∧
      ps.Pairwise (fun a b => a.1 < b.1 ∨ (a.1 = b.1 ∧ a.2 < b.2)) ∧
      (ps.map fun ym => fmtMonthKey ym.1 ym.2).Nodup := by
  have hy9999 : now.year ≤ 9999 := h.2.1
  have hm12 : now.month ≤ 12 := h.2.2.2.1
  obtain ⟨ps, hps, hlen, hpt⟩ := monthlyPairs_spec now h h2
  have hbounds : ∀ i, i < 12 → (ps.getD i (0, 0)).1 ≤ 9999 ∧ (ps.getD i (0, 0)).2 ≤ 99 := by
    intro i hi
    rw [hpt i hi]
    split <;> constructor <;> simp <;> omega
  have hlt : ∀ i j, i < j → j < 12 →
      (ps.getD i (0, 0)).1 < (ps.getD j (0, 0)).1 ∨
        ((ps.getD i (0, 0)).1 = (ps.getD j (0, 0)).1 ∧
          (ps.getD i (0, 0)).2 < (ps.getD j (0, 0)).2) := by
    intro i j hij hj
    rw [hpt i (by omega), hpt j (by omega)]
    by_cases hci : 11 - i < now.month <;> by_cases hcj : 11 - j < now.month
    · rw [if_pos hci, if_pos hcj]
      right
      constructor
      · rfl
      · simp
        omega
    · omega
    · rw [if_neg hci, if_pos hcj]
      left
      simp
      omega
    · rw [if_neg hci, if_neg hcj]
      right
      constructor
      · rfl
      · simp
        omega
  refine ⟨ps, hps, by unfold bucketKeys; rw [hps]; rfl, hlen, ?_, ?_⟩
  · rw [List.pairwise_iff_getElem]
    intro i j hi hj hij
    rw [← List.getD_eq_getElem ps (0, 0) hi, ← List.getD_eq_getElem ps (0, 0) hj]
    exact hlt i j hij (by omega)
  · rw [List.Nodup, List.pairwise_map, List.pairwise_iff_getElem]
    intro i j hi hj hij
    rw [← List.getD_eq_getElem ps (0, 0) hi, ← List.getD_eq_getElem ps (0, 0) hj]
    intro heq
    obtain ⟨hbi1, hbi2⟩ := hbounds i (by omega)
    obtain ⟨hbj1, hbj2⟩ := hbounds j (by omega)
    obtain ⟨he1, he2⟩ := fmtMonthKey_inj _ _ _ _ hbi1 hbi2 hbj1 hbj2 heq
    rcases hlt i j hij (by omega) with hc | ⟨hc1, hc2⟩ <;> omega

/-- C2 : for every reference instant from year 2 on (so that the lookback
windows stay inside the representable `datetime` range), the daily,
weekly and monthly bucket key sequences have exactly 30, 12 and 12
entries, are produced oldest first in strictly ascending chronological
order, and contain no duplicate keys. -/
theorem C2_bucket_sequences (now : Date) (h : Valid now) (h2 : 2 ≤ now.year) :
    (∃ ds, dailyDates now = some ds ∧ bucketKeys .daily now = some (ds.map fmtDate) ∧
      ds.length = 30 ∧ ds.Pairwise (fun a b => toOrdinal a < toOrdinal b) ∧
      (ds.map fmtDate).Nodup) ∧
    (∃ ws, weeklyDates now = some ws ∧ bucketKeys .weekly now = some (ws.map fmtWeekKey) ∧
      ws.length = 12 ∧ ws.Pairwise (fun a b => toOrdinal a < toOrdinal b) ∧
      (ws.map fmtWeekKey).Nodup) ∧
    (∃ ps, monthlyPairs now = some ps ∧
      bucketKeys .monthly now = some (ps.map fun ym => fmtMonthKey ym.1 ym.2) ∧
      ps.length = 12 ∧
      ps.Pairwise (fun a b => a.1 < b.1 ∨ (a.1 = b.1 ∧ a.2 < b.2)) ∧
      (ps.map fun ym => fmtMonthKey ym.1 ym.2).Nodup) :=
  ⟨dailyBuckets_ok now h h2, weeklyBuckets_ok now h h2, monthlyBuckets_ok now h h2⟩

/-- C2, counterexample to the claim as stated: at the valid reference
instant 0001-01-15 every window generation raises (`OverflowError` /
`ValueError` caught into the empty fallback), so no 30-entry daily
sequence exists — the claim fails for this reference instant. -/
theorem C2_counterexample :
    Valid ⟨1, 1, 15⟩ ∧ bucketKeys .daily ⟨1, 1, 15⟩ = none ∧
      bucketKeys .weekly ⟨1, 1, 15⟩ = none ∧ bucketKeys .monthly ⟨1, 1, 15⟩ = none ∧
      (getTimeSeriesData [] .daily ⟨1, 1, 15⟩).total.length = 0 := by
  refine ⟨by decide, by decide, by decide, by decide, ?_⟩
  have hb : bucketKeys .daily ⟨1, 1, 15⟩ = none := by decide
  unfold getTimeSeriesData
  rw [hb]
  rfl

/-- C2, witness: the amended theorem applied at the leap-day instant
2024-02-29. -/
theorem C2_witness :
    Valid ⟨2024, 2, 29⟩ ∧ 2 ≤ (Date.mk 2024 2 29).year ∧
      (∃ ds, dailyDates ⟨2024, 2, 29⟩ = some ds ∧ ds.length = 30 ∧ (ds.map fmtDate).Nodup) ∧
      (∃ ws, weeklyDates ⟨2024, 2, 29⟩ = some ws ∧ ws.length = 12 ∧ (ws.map fmtWeekKey).Nodup) ∧
      (∃ ps, monthlyPairs ⟨2024, 2, 29⟩ = some ps ∧ ps.length = 12 ∧
        (ps.map fun ym => fmtMonthKey ym.1 ym.2).Nodup) := by
  have h := C2_bucket_sequences ⟨2024, 2, 29⟩ (by decide) (by decide)
  obtain ⟨⟨ds, hd1, -, hd3, -, hd5⟩, ⟨ws, hw1, -, hw3, -, hw5⟩, ⟨ps, hp1, -, hp3, -, hp5⟩⟩ := h
  exact ⟨by decide, by decide, ⟨ds, hd1, hd3, hd5⟩, ⟨ws, hw1, hw3, hw5⟩, ⟨ps, hp1, hp3, hp5⟩⟩

/-! ### Aggregation-loop lemmas -/

theorem tsStep_skip (keys : List String) (p : Period) (cats : Finset String)
    (acc : TSAcc) (e : Record)
    (h : parseCreated e.created_at = none ∨ floatOfAmount e.amount = none) :
    tsStep keys p cats acc e = acc := by
  unfold tsStep
  rcases h with h | h
  · rw [h]
  · rw [h]
    cases parseCreated e.created_at <;> rfl

theorem tsStep_out_of_window (keys : List String) (p : Period) (cats : Finset String)
    (acc : TSAcc) (e : Record) (d : Date) (a : ℚ)
    (hd : parseCreated e.created_at = some d) (ha : floatOfAmount e.amount = some a)
    (hk : keyFor p d ∉ keys) :
    tsStep keys p cats acc e = acc := by
  unfold tsStep
  rw [hd, ha]
  simp [hk]

theorem tsStep_cats_congr (keys : List String) (p : Period) (cats cats' : Finset String)
    (acc : TSAcc) (e : Record) (h : e.category ∈ cats ↔ e.category ∈ cats') :
    tsStep keys p cats acc e = tsStep keys p cats' acc e := by
  unfold tsStep
  cases parseCreated e.created_at <;> cases floatOfAmount e.amount <;> try rfl
  simp only
  split
  · by_cases hc : e.category ∈ cats
    · rw [if_pos hc, if_pos (h.mp hc)]
    · rw [if_neg hc, if_neg (fun hc' => hc (h.mpr hc'))]
  · rfl

theorem foldl_tsStep_cats_congr (keys : List String) (p : Period)
    (cats cats' : Finset String) (l : List Record)
    (h : ∀ e ∈ l, (e.category ∈ cats ↔ e.category ∈ cats')) (acc : TSAcc) :
    l.foldl (tsStep keys p cats) acc = l.foldl (tsStep keys p cats') acc := by
  induction l generalizing acc with
  | nil => rfl
  | cons x xs ih =>
    simp only [List.foldl_cons]
    rw [tsStep_cats_congr keys p cats cats' acc x (h x (List.mem_cons_self _ _))]
    exact ih (fun e he => h e (List.mem_cons_of_mem _ he)) _

theorem getTSD_skips (l1 l2 : List Record) (e : Record) (p : Period) (now : Date)
    (hskip : ∀ keys, bucketKeys p now = some keys →
      ∀ (cats : Finset String) (acc : TSAcc), tsStep keys p cats acc e = acc) :
    (getTimeSeriesData (l1 ++ e :: l2) p now).total =
        (getTimeSeriesData (l1 ++ l2) p now).total ∧
      ∀ c, (getTimeSeriesData (l1 ++ e :: l2) p now).by_category c =
        (getTimeSeriesData (l1 ++ l2) p now).by_category c := by
  unfold getTimeSeriesData
  cases hb : bucketKeys p now with
  | none => exact ⟨rfl, fun _ => rfl⟩
  | some keys =>
    have hmem : ∀ r ∈ l1 ++ l2,
        (r.category ∈ ((l1 ++ e :: l2).map (·.category)).toFinset ↔
          r.category ∈ ((l1 ++ l2).map (·.category)).toFinset) := by
      intro r hr
      constructor <;> intro
      · exact List.mem_toFinset.mpr (List.mem_map.mpr ⟨r, hr, rfl⟩)
      · refine List.mem_toFinset.mpr (List.mem_map.mpr ⟨r, ?_, rfl⟩)
        rcases List.mem_append.mp hr with h | h
        · exact List.mem_append.mpr (Or.inl h)
        · exact List.mem_append.mpr (Or.inr (List.mem_cons_of_mem _ h))
    have hfold :
        (l1 ++ e :: l2).foldl
            (tsStep keys p (((l1 ++ e :: l2).map (·.category)).toFinset))
            ⟨fun _ => 0, fun _ _ => 0⟩ =
          (l1 ++ l2).foldl (tsStep keys p (((l1 ++ l2).map (·.category)).toFinset))
            ⟨fun _ => 0, fun _ _ => 0⟩ := by
      rw [List.foldl_append, List.foldl_append, List.foldl_cons]
      rw [hskip keys hb]
      rw [foldl_tsStep_cats_congr keys p _ (((l1 ++ l2).map (·.category)).toFinset) l1
        (fun r hr => hmem r (List.mem_append.mpr (Or.inl hr))) _]
      rw [foldl_tsStep_cats_congr keys p _ (((l1 ++ l2).map (·.category)).toFinset) l2
        (fun r hr => hmem r (List.mem_append.mpr (Or.inr hr))) _]
    simp only [hfold]
    exact ⟨trivial, fun _ => trivial⟩

theorem tsStep_sum_invariant (keys : List String) (p : Period) (cats : Finset String)
    (acc : TSAcc) (e : Record) (he : e.category ∈ cats)
    (hacc : ∀ k, acc.ts k = ∑ c ∈ cats, acc.cs c k) (k : String) :
    (tsStep keys p cats acc e).ts k = ∑ c ∈ cats, (tsStep keys p cats acc e).cs c k := by
  unfold tsStep
  cases hp : parseCreated e.created_at with
  | none => exact hacc k
  | some d =>
    cases hf : floatOfAmount e.amount with
    | none => exact hacc k
    | some a =>
      simp only
      split
      · simp only [if_pos he]
        by_cases hk : k = keyFor p d
        · simp only [hk, eq_self_iff_true, and_true, if_true]
          have hsplit :
              (∑ c ∈ cats,
                  if c = e.category then acc.cs c (keyFor p d) + a else acc.cs c (keyFor p d)) =
                ∑ c ∈ cats, (acc.cs c (keyFor p d) + if c = e.category then a else 0) := by
            refine Finset.sum_congr rfl fun c _ => ?_
            by_cases hc : c = e.category <;> simp [hc]
          rw [hsplit, Finset.sum_add_distrib, Finset.sum_ite_eq' cats e.category fun _ => a,
            if_pos he, ← hacc (keyFor p d)]
        · rw [if_neg hk, hacc k]
          refine Finset.sum_congr rfl fun c _ => ?_
          rw [if_neg (show ¬(c = e.category ∧ k = keyFor p d) from fun hcon => hk hcon.2)]
      · exact hacc k

theorem foldl_tsStep_sum (keys : List String) (p : Period) (cats : Finset String)
    (l : List Record) (hc : ∀ e ∈ l, e.category ∈ cats) (acc : TSAcc)
    (hacc : ∀ k, acc.ts k = ∑ c ∈ cats, acc.cs c k) (k : String) :
    (l.foldl (tsStep keys p cats) acc).ts k =
      ∑ c ∈ cats, (l.foldl (tsStep keys p cats) acc).cs c k := by
  induction l generalizing acc with
  | nil => exact hacc k
  | cons x xs ih =>
    simp only [List.foldl_cons]
    exact ih (fun e he => hc e (List.mem_cons_of_mem _ he)) _
      (tsStep_sum_invariant keys p cats acc x (hc x (List.mem_cons_self _ _)) hacc)

/-- C10 : in every structure produced by the time-series aggregation,
each bucket position's unfiltered total equals the sum over the
`by_category` categories of that category's value at the same bucket key
(the per-category series cover the same keys positionally). -/
theorem C10_series_consistency (l : List Record) (p : Period) (now : Date) (i : ℕ)
    (hi : i < (getTimeSeriesData l p now).total.length) :
    ((getTimeSeriesData l p now).total.getD i ("", 0)).2 =
      (∑ c ∈ (getTimeSeriesData l p now).catKeys,
        (((getTimeSeriesData l p now).by_category c).getD i ("", 0)).2) ∧
    ∀ c, ((getTimeSeriesData l p now).by_category c).length =
        (getTimeSeriesData l p now).total.length ∧
      (((getTimeSeriesData l p now).by_category c).getD i ("", 0)).1 =
        ((getTimeSeriesData l p now).total.getD i ("", 0)).1 := by
  unfold getTimeSeriesData at *
  cases hb : bucketKeys p now with
  | none =>
    rw [hb] at hi
    simp at hi
  | some keys =>
    rw [hb] at hi
    simp only at hi ⊢
    simp only [List.length_map] at hi
    have hgetD : ∀ (f : String → ℚ),
        ((keys.map fun k => (k, f k)).getD i ("", 0)) = (keys.getD i "", f (keys.getD i "")) := by
      intro f
      rw [List.getD_eq_getElem _ _ (by simpa using hi), List.getElem_map,
        List.getD_eq_getElem _ _ hi]
    constructor
    · simp only [hgetD]
      exact foldl_tsStep_sum keys p ((l.map (·.category)).toFinset) l
        (fun e he => List.mem_toFinset.mpr (List.mem_map.mpr ⟨e, he, rfl⟩))
        ⟨fun _ => 0, fun _ _ => 0⟩ (fun k => by simp) (keys.getD i "")
    · intro c
      refine ⟨by simp, ?_⟩
      simp only [hgetD]

/-- C10, witness: the consistency property at bucket position 11 of the
monthly series of a concrete two-record set. -/
theorem C10_witness :
    0 < 12 ∧
      ((getTimeSeriesData
            [⟨"a", .num 100, "Food", .iso ⟨2025, 5, 10⟩ true⟩,
             ⟨"b", .num 150, "Transport", .iso ⟨2025, 6, 5⟩ false⟩]
            .monthly ⟨2025, 6, 15⟩).total.getD 11 ("", 0)).2 =
        ∑ c ∈ (getTimeSeriesData
            [⟨"a", .num 100, "Food", .iso ⟨2025, 5, 10⟩ true⟩,
             ⟨"b", .num 150, "Transport", .iso ⟨2025, 6, 5⟩ false⟩]
            .monthly ⟨2025, 6, 15⟩).catKeys,
          (((getTimeSeriesData
            [⟨"a", .num 100, "Food", .iso ⟨2025, 5, 10⟩ true⟩,
             ⟨"b", .num 150, "Transport", .iso ⟨2025, 6, 5⟩ false⟩]
            .monthly ⟨2025, 6, 15⟩).by_category c).getD 11 ("", 0)).2 :=
  ⟨by omega,
    (C10_series_consistency
      [⟨"a", .num 100, "Food", .iso ⟨2025, 5, 10⟩ true⟩,
       ⟨"b", .num 150, "Transport", .iso ⟨2025, 6, 5⟩ false⟩]
      .monthly ⟨2025, 6, 15⟩ 11 (by decide)).1⟩

/-- C6 : inside the aggregation loop (a) a `created_at` carrying the
literal trailing `Z` is processed exactly like the same timestamp with an
explicit offset, because the `replace('Z', '+00:00')` normalisation runs
before the parse; (b) a record whose parse or float conversion fails
leaves the accumulation state untouched; and (c) such a malformed record
is skipped while every other record is still accumulated — the whole
granularity is never aborted (its unfiltered and per-category series are
those of the record set without the malformed record). -/
theorem C6_per_record_containment :
    (∀ (keys : List String) (p : Period) (cats : Finset String) (acc : TSAcc)
        (e : Record) (d : Date), e.created_at = .iso d true →
        tsStep keys p cats acc e =
          tsStep keys p cats acc ⟨e.name, e.amount, e.category, .iso d false⟩) ∧
    (∀ (keys : List String) (p : Period) (cats : Finset String) (acc : TSAcc) (e : Record),
        parseCreated e.created_at = none ∨ floatOfAmount e.amount = none →
        tsStep keys p cats acc e = acc) ∧
    (∀ (l1 l2 : List Record) (e : Record) (p : Period) (now : Date),
        parseCreated e.created_at = none ∨ floatOfAmount e.amount = none →
        (getTimeSeriesData (l1 ++ e :: l2) p now).total =
            (getTimeSeriesData (l1 ++ l2) p now).total ∧
          ∀ c, (getTimeSeriesData (l1 ++ e :: l2) p now).by_category c =
            (getTimeSeriesData (l1 ++ l2) p now).by_category c) := by
  refine ⟨?_, tsStep_skip, ?_⟩
  · intro keys p cats acc e d hce
    obtain ⟨n, a, c, ca⟩ := e
    simp only at hce
    subst hce
    rfl
  · intro l1 l2 e p now h
    exact getTSD_skips l1 l2 e p now fun keys _ cats acc => tsStep_skip keys p cats acc e h

/-- C6, witness: a record with an unparseable timestamp mixed with one
valid record leaves the valid record's daily series untouched. -/
theorem C6_witness :
    (parseCreated CreatedAt.malformed = none ∨
        floatOfAmount (Amount.num 150) = none) ∧
      (getTimeSeriesData
          [⟨"b", .num 150, "Transport", .iso ⟨2025, 6, 5⟩ false⟩,
           ⟨"bad", .num 3, "Food", .malformed⟩] .daily ⟨2025, 6, 15⟩).total =
        (getTimeSeriesData
          [⟨"b", .num 150, "Transport", .iso ⟨2025, 6, 5⟩ false⟩] .daily ⟨2025, 6, 15⟩).total :=
  ⟨Or.inl rfl,
    (C6_per_record_containment.2.2
      [⟨"b", .num 150, "Transport", .iso ⟨2025, 6, 5⟩ false⟩] []
      ⟨"bad", .num 3, "Food", .malformed⟩ .daily ⟨2025, 6, 15⟩ (Or.inl rfl)).1⟩

/-! ### Grand-total and category-totals lemmas -/

theorem sumAmounts_from_none (l : List Record) (e : Record) (v : Option ℚ)
    (he : e ∈ l) (hv : e.amount = .str v) (q0 : ℚ) :
    l.foldlM (fun acc r => addAmount acc r.amount) q0 = none := by
  induction l generalizing q0 with
  | nil => simp at he
  | cons x xs ih =>
    rw [List.foldlM_cons]
    rcases List.mem_cons.mp he with rfl | hm
    · rw [hv]
      rfl
    · cases hx : addAmount q0 x.amount with
      | none => rfl
      | some q1 => simpa using ih hm q1

theorem sumAmounts_from_char (l : List Record) (q0 s : ℚ)
    (h : l.foldlM (fun acc r => addAmount acc r.amount) q0 = some s) :
    s = q0 + (l.map fun r => match r.amount with | .num q => q | .str _ => 0).sum := by
  induction l generalizing q0 with
  | nil =>
    simp [List.foldlM] at h
    simp [h]
  | cons x xs ih =>
    rw [List.foldlM_cons] at h
    cases hx : x.amount with
    | num q =>
      rw [hx] at h
      have h' : xs.foldlM (fun acc r => addAmount acc r.amount) (q0 + q) = some s := by
        simpa [addAmount] using h
      rw [ih _ h']
      simp [hx]
      ring
    | str v =>
      rw [hx] at h
      simp [addAmount] at h

theorem categoryTotals_from_none (l : List Record) (e : Record) (v : Option ℚ)
    (he : e ∈ l) (hv : e.amount = .str v) (acc : List (String × ℚ)) :
    l.foldlM
        (fun a r =>
          match r.amount with
          | .num q => some (addAssoc a r.category q)
          | .str _ => none)
        acc = none := by
  induction l generalizing acc with
  | nil => simp at he
  | cons x xs ih =>
    rw [List.foldlM_cons]
    rcases List.mem_cons.mp he with rfl | hm
    · rw [hv]
      rfl
    · cases hx : x.amount with
      | num q => simpa using ih hm (addAssoc acc x.category q)
      | str w => rfl

theorem addAssoc_sum (acc : List (String × ℚ)) (c' : String) (a : ℚ) :
    ((addAssoc acc c' a).map (·.2)).sum = (acc.map (·.2)).sum + a := by
  induction acc with
  | nil => simp [addAssoc]
  | cons kv t ih =>
    obtain ⟨c0, v0⟩ := kv
    by_cases h0 : c0 = c'
    · simp [addAssoc, h0]
      ring
    · simp [addAssoc, h0, ih]
      ring

theorem addAssoc_filter_sum (acc : List (String × ℚ)) (c' : String) (a : ℚ) (c : String) :
    (((addAssoc acc c' a).filter fun kv => kv.1 = c).map (·.2)).sum =
      ((acc.filter fun kv => kv.1 = c).map (·.2)).sum + (if c' = c then a else 0) := by
  induction acc with
  | nil => by_cases h : c' = c <;> simp [addAssoc, h]
  | cons kv t ih =>
    obtain ⟨c0, v0⟩ := kv
    unfold addAssoc
    by_cases h0 : c0 = c'
    · rw [if_pos h0]
      by_cases hc : c0 = c
      · have hcc : c' = c := by rw [← h0, hc]
        simp [hc, hcc]
        ring
      · have hcc : ¬ c' = c := by rw [← h0]; exact hc
        simp [hc, hcc]
    · rw [if_neg h0]
      by_cases hc : c0 = c
      · simp [hc, ih]
        ring
      · simp [hc, ih]

theorem categoryTotals_from_sum (l : List Record) (acc m : List (String × ℚ))
    (h : l.foldlM
        (fun a r =>
          match r.amount with
          | .num q => some (addAssoc a r.category q)
          | .str _ => none)
        acc = some m) :
    (m.map (·.2)).sum =
      (acc.map (·.2)).sum + (l.map fun r => match r.amount with | .num q => q | .str _ => 0).sum := by
  induction l generalizing acc with
  | nil =>
    simp [List.foldlM] at h
    simp [← h]
  | cons x xs ih =>
    rw [List.foldlM_cons] at h
    cases hx : x.amount with
    | num q =>
      rw [hx] at h
      have h' := ih (addAssoc acc x.category q) (by simpa using h)
      rw [h', addAssoc_sum]
      simp [hx]
      ring
    | str v =>
      rw [hx] at h
      simp at h

theorem categoryTotals_from_filter_sum (l : List Record) (acc m : List (String × ℚ))
    (h : l.foldlM
        (fun a r =>
          match r.amount with
          | .num q => some (addAssoc a r.category q)
          | .str _ => none)
        acc = some m) (c : String) :
    ((m.filter fun kv => kv.1 = c).map (·.2)).sum =
      ((acc.filter fun kv => kv.1 = c).map (·.2)).sum +
        ((l.filter fun r => r.category = c).map
          fun r => match r.amount with | .num q => q | .str _ => 0).sum := by
  induction l generalizing acc with
  | nil =>
    simp [List.foldlM] at h
    simp [← h]
  | cons x xs ih =>
    rw [List.foldlM_cons] at h
    cases hx : x.amount with
    | num q =>
      rw [hx] at h
      have h' := ih (addAssoc acc x.category q) (by simpa using h)
      rw [h', addAssoc_filter_sum]
      by_cases hc : x.category = c <;> simp [hx, hc] <;> ring
    | str v =>
      rw [hx] at h
      simp at h

theorem getDashboardData_fail (x : Record) (xs : List Record) (now : Date)
    (e : Record) (v : Option ℚ) (he : e ∈ x :: xs) (hv : e.amount = .str v) :
    getDashboardData (some (some (x :: xs))) now = none := by
  simp only [getDashboardData,
    show sumAmounts (x :: xs) = none from sumAmounts_from_none _ e v he hv 0,
    show categoryTotals (x :: xs) = none from categoryTotals_from_none _ e v he hv []]

theorem getDashboardData_success (x : Record) (xs : List Record) (now : Date) (tot : ℚ)
    (cts : List (String × ℚ)) (hs : sumAmounts (x :: xs) = some tot)
    (hc : categoryTotals (x :: xs) = some cts) :
    getDashboardData (some (some (x :: xs))) now =
      some
        ⟨tot, cts, getTopCategories cts,
          getTimeSeriesData (x :: xs) .daily now, getTimeSeriesData (x :: xs) .weekly now,
          getTimeSeriesData (x :: xs) .monthly now, (x :: xs).take 5,
          if (getTimeSeriesData (x :: xs) .daily now).total = [] then 0
          else ((getTimeSeriesData (x :: xs) .daily now).total.map (·.2)).sum /
            ((getTimeSeriesData (x :: xs) .daily now).total.length : ℚ),
          (((getTimeSeriesData (x :: xs) .monthly now).total.filter
              fun kv => kv.1 = currentMonthKey now).map (·.2)).sum,
          momOf (getTimeSeriesData (x :: xs) .monthly now).total⟩ := by
  simp only [getDashboardData, hs, hc]

/-- C4 (amended): a record whose amount is a string (numeric-looking or
not) makes the grand-total `sum()` raise `TypeError`; the composer
catches it and returns `None` — the record is not excluded from an
otherwise-computed sum, and no partial summary is produced (though no
exception escapes the function). -/
theorem C4_nonnumeric_amount (l : List Record) (now : Date) (e : Record)
    (v : Option ℚ) (he : e ∈ l) (hv : e.amount = .str v) :
    getDashboardData (some (some l)) now = none := by
  cases l with
  | nil => simp at he
  | cons x xs => exact getDashboardData_fail x xs now e v he hv

/-- C4, counterexample to the claim as stated: with amount `"abc"` mixed
with a valid amount-10 record the composition yields `None`, not a
summary with grand total 10. -/
theorem C4_counterexample :
    getDashboardData
        (some (some [⟨"bad", .str none, "Food", .iso ⟨2025, 6, 1⟩ false⟩,
          ⟨"ok", .num 10, "Food", .iso ⟨2025, 6, 5⟩ false⟩])) ⟨2025, 6, 15⟩ = none ∧
      (getDashboardData
        (some (some [⟨"bad", .str none, "Food", .iso ⟨2025, 6, 1⟩ false⟩,
          ⟨"ok", .num 10, "Food", .iso ⟨2025, 6, 5⟩ false⟩])) ⟨2025, 6, 15⟩).map
        (·.total_expenses) ≠ some 10 := by
  have h := getDashboardData_fail
    ⟨"bad", .str none, "Food", .iso ⟨2025, 6, 1⟩ false⟩
    [⟨"ok", .num 10, "Food", .iso ⟨2025, 6, 5⟩ false⟩] ⟨2025, 6, 15⟩
    ⟨"bad", .str none, "Food", .iso ⟨2025, 6, 1⟩ false⟩ none
    (List.mem_cons_self _ _) rfl
  rw [h]
  simp

/-- C4, witness: the amended theorem applied at a concrete input. -/
theorem C4_witness :
    (⟨"v", .str (some 5), "Food", .iso ⟨2025, 6, 3⟩ false⟩ : Record) ∈
        [(⟨"v", .str (some 5), "Food", .iso ⟨2025, 6, 3⟩ false⟩ : Record)] ∧
      (Record.mk "v" (.str (some 5)) "Food" (.iso ⟨2025, 6, 3⟩ false)).amount =
        .str (some 5) ∧
      getDashboardData
        (some (some [⟨"v", .str (some 5), "Food", .iso ⟨2025, 6, 3⟩ false⟩]))
        ⟨2025, 6, 15⟩ = none :=
  ⟨List.mem_cons_self _ _, rfl,
    C4_nonnumeric_amount _ _ _ (some 5) (List.mem_cons_self _ _) rfl⟩

/-- C8 : for every non-empty record set on which the composition's sums
complete, the grand total equals the sum over all categories of the
per-category totals. -/
theorem C8_total_eq_category_sum (l : List Record) (hne : l ≠ [])
    (s : ℚ) (m : List (String × ℚ)) (hs : sumAmounts l = some s)
    (hm : categoryTotals l = some m) : s = (m.map (·.2)).sum := by
  have h1 := sumAmounts_from_char l 0 s hs
  have h2 := categoryTotals_from_sum l [] m hm
  simp only [List.map_nil, List.sum_nil, zero_add] at h1 h2
  rw [h1, h2]

/-- C8, witness: the relation at a concrete two-record set. -/
theorem C8_witness :
    ([⟨"b", .num 150, "Transport", .iso ⟨2025, 6, 5⟩ false⟩,
        ⟨"a", .num 100, "Food", .iso ⟨2025, 5, 10⟩ true⟩] : List Record) ≠ [] ∧
      sumAmounts
        [⟨"b", .num 150, "Transport", .iso ⟨2025, 6, 5⟩ false⟩,
         ⟨"a", .num 100, "Food", .iso ⟨2025, 5, 10⟩ true⟩] = some 250 ∧
      categoryTotals
        [⟨"b", .num 150, "Transport", .iso ⟨2025, 6, 5⟩ false⟩,
         ⟨"a", .num 100, "Food", .iso ⟨2025, 5, 10⟩ true⟩] =
        some [("Transport", 150), ("Food", 100)] ∧
      (250 : ℚ) = ([(("Transport" : String), (150 : ℚ)), ("Food", 100)].map (·.2)).sum :=
  ⟨by simp, by with_unfolding_all decide, by with_unfolding_all decide,
    C8_total_eq_category_sum
      [⟨"b", .num 150, "Transport", .iso ⟨2025, 6, 5⟩ false⟩,
       ⟨"a", .num 100, "Food", .iso ⟨2025, 5, 10⟩ true⟩]
      (by simp) 250 [("Transport", 150), ("Food", 100)]
      (by with_unfolding_all decide) (by with_unfolding_all decide)⟩

/-- C3 : whenever the composition returns a summary, its month-over-month
growth equals `(latest - previous) / previous * 100` exactly when the
previous monthly bucket total is positive and at least two monthly
buckets exist, and equals 0 otherwise; in particular two records in
consecutive months with monthly totals 100 and 150 (150 most recent)
yield a growth of 50. -/
theorem C3_mom_growth :
    (∀ (l : List Record) (now : Date) (d : Dashboard),
        getDashboardData (some (some l)) now = some d →
        (2 ≤ d.tsMonthly.total.length →
          d.mom_growth =
            if 0 < (d.tsMonthly.total.reverse.getD 1 ("", 0)).2 then
              ((d.tsMonthly.total.reverse.getD 0 ("", 0)).2 -
                  (d.tsMonthly.total.reverse.getD 1 ("", 0)).2) /
                (d.tsMonthly.total.reverse.getD 1 ("", 0)).2 * 100
            else 0) ∧
        (d.tsMonthly.total.length < 2 → d.mom_growth = 0)) ∧
    (getDashboardData
        (some (some [⟨"b", .num 150, "Food & Dining", .iso ⟨2025, 6, 5⟩ false⟩,
          ⟨"a", .num 100, "Food & Dining", .iso ⟨2025, 5, 10⟩ false⟩]))
        ⟨2025, 6, 15⟩).map (·.mom_growth) = some 50 := by
  constructor
  · intro l now d h
    have hmom : d.mom_growth = momOf d.tsMonthly.total := by
      cases l with
      | nil =>
        rw [show getDashboardData (some (some [])) now = some emptyDashboard from rfl] at h
        injection h with h
        rw [← h]
        rfl
      | cons x xs =>
        cases hs : sumAmounts (x :: xs) with
        | none =>
          simp only [getDashboardData, hs] at h
          simp at h
        | some tot =>
          cases hcc : categoryTotals (x :: xs) with
          | none =>
            simp only [getDashboardData, hs, hcc] at h
            simp at h
          | some cts =>
            rw [getDashboardData_success x xs now tot cts hs hcc] at h
            injection h with h
            rw [← h]
    constructor
    · intro hlen
      cases hr : d.tsMonthly.total.reverse with
      | nil =>
        rw [← List.length_reverse, hr] at hlen
        simp at hlen
      | cons c tl =>
        cases tl with
        | nil =>
          rw [← List.length_reverse, hr] at hlen
          simp at hlen
        | cons p tl' =>
          rw [hmom]
          unfold momOf
          rw [hr]
          simp [List.getD]
    · intro hlen
      rw [hmom]
      unfold momOf
      cases hr : d.tsMonthly.total.reverse with
      | nil => rfl
      | cons c tl =>
        cases tl with
        | nil => rfl
        | cons p tl' =>
          rw [← List.length_reverse, hr] at hlen
          simp at hlen
          omega
  · with_unfolding_all decide

/-- C3, witness: the scenario conjunct of the theorem (two consecutive
monthly totals 100 then 150 give 50 percent growth). -/
theorem C3_witness :
    (getDashboardData
        (some (some [⟨"b", .num 150, "Food & Dining", .iso ⟨2025, 6, 5⟩ false⟩,
          ⟨"a", .num 100, "Food & Dining", .iso ⟨2025, 5, 10⟩ false⟩]))
        ⟨2025, 6, 15⟩).map (·.mom_growth) = some 50 :=
  C3_mom_growth.2

theorem sumAmounts_shift (l : List Record) (a δ : ℚ) :
    l.foldlM (fun acc r => addAmount acc r.amount) (a + δ) =
      (l.foldlM (fun acc r => addAmount acc r.amount) a).map (· + δ) := by
  induction l generalizing a with
  | nil => simp [List.foldlM]
  | cons x xs ih =>
    rw [List.foldlM_cons, List.foldlM_cons]
    cases hx : x.amount with
    | num p =>
      simp only [addAmount, Option.some_bind, Option.bind_eq_bind]
      rw [show a + δ + p = a + p + δ by ring]
      simpa using ih (a + p)
    | str v => simp [addAmount]

/-- C5 : a record whose derived bucket key falls outside the lookback
window is silently excluded from the unfiltered series (part 1) but still
contributes its amount to the grand total (part 2) and to its category's
total (part 3); part 4 is the concrete 40-day scenario: a 2025-05-06
record at reference instant 2025-06-15 has no daily bucket (30-day
window) yet appears in the grand total and in the 12-month monthly
series. -/
theorem C5_out_of_window :
    (∀ (l1 l2 : List Record) (e : Record) (p : Period) (now d : Date) (a : ℚ)
        (keys : List String),
        parseCreated e.created_at = some d → floatOfAmount e.amount = some a →
        bucketKeys p now = some keys → keyFor p d ∉ keys →
        (getTimeSeriesData (l1 ++ e :: l2) p now).total =
          (getTimeSeriesData (l1 ++ l2) p now).total) ∧
    (∀ (l1 l2 : List Record) (e : Record) (q s : ℚ), e.amount = .num q →
        sumAmounts (l1 ++ l2) = some s → sumAmounts (l1 ++ e :: l2) = some (s + q)) ∧
    (∀ (l1 l2 : List Record) (e : Record) (q : ℚ) (m m' : List (String × ℚ)),
        e.amount = .num q →
        categoryTotals (l1 ++ l2) = some m → categoryTotals (l1 ++ e :: l2) = some m' →
        ((m'.filter fun kv => kv.1 = e.category).map (·.2)).sum =
          ((m.filter fun kv => kv.1 = e.category).map (·.2)).sum + q) ∧
    (fmtDate ⟨2025, 5, 6⟩ ∉ (bucketKeys .daily ⟨2025, 6, 15⟩).getD [] ∧
      (bucketKeys .daily ⟨2025, 6, 15⟩).isSome = true ∧
      fmtMonthKey 2025 5 ∈ (bucketKeys .monthly ⟨2025, 6, 15⟩).getD [] ∧
      (getDashboardData
          (some (some [⟨"b", .num 150, "Food", .iso ⟨2025, 6, 5⟩ false⟩,
            ⟨"old", .num 7, "Food", .iso ⟨2025, 5, 6⟩ false⟩])) ⟨2025, 6, 15⟩).map
        (·.total_expenses) = some 157 ∧
      (getTimeSeriesData
          [⟨"b", .num 150, "Food", .iso ⟨2025, 6, 5⟩ false⟩,
           ⟨"old", .num 7, "Food", .iso ⟨2025, 5, 6⟩ false⟩] .monthly
          ⟨2025, 6, 15⟩).total.filter (fun kv => ¬ kv.2 = 0) =
        [("2025-05", 7), ("2025-06", 150)]) := by
  refine ⟨?_, ?_, ?_, ?_⟩
  · intro l1 l2 e p now d a keys hd ha hb hk
    refine (getTSD_skips l1 l2 e p now fun keys' hb' cats acc => ?_).1
    rw [hb] at hb'
    injection hb' with hb'
    subst hb'
    exact tsStep_out_of_window keys p cats acc e d a hd ha hk
  · intro l1 l2 e q s he h
    unfold sumAmounts at *
    rw [List.foldlM_append] at h ⊢
    cases ha : l1.foldlM (fun acc r => addAmount acc r.amount) 0 with
    | none => rw [ha] at h; simp at h
    | some a =>
      rw [ha] at h
      simp only [Option.some_bind, Option.bind_eq_bind] at h ⊢
      rw [List.foldlM_cons]
      rw [show addAmount a e.amount = some (a + q) by rw [he]; rfl]
      simp only [Option.some_bind, Option.bind_eq_bind]
      rw [sumAmounts_shift]
      simp [h]
  · intro l1 l2 e q m m' he hm hm'
    have h1 := categoryTotals_from_filter_sum (l1 ++ l2) [] m hm e.category
    have h2 := categoryTotals_from_filter_sum (l1 ++ e :: l2) [] m' hm' e.category
    simp only [List.filter_nil, List.map_nil, List.sum_nil, zero_add] at h1 h2
    rw [h1, h2, List.filter_append, List.filter_append, List.map_append, List.map_append,
      List.sum_append, List.sum_append]
    simp [he]
    ring
  · refine ⟨by decide, by decide, by decide, by with_unfolding_all decide,
      by with_unfolding_all decide⟩

/-- C5, witness: parts 1 and 2 of the theorem applied to the concrete
40-day-old record. -/
theorem C5_witness :
    (getTimeSeriesData
        [⟨"b", .num 150, "Food", .iso ⟨2025, 6, 5⟩ false⟩,
         ⟨"old", .num 7, "Food", .iso ⟨2025, 5, 6⟩ false⟩] .daily ⟨2025, 6, 15⟩).total =
      (getTimeSeriesData [⟨"b", .num 150, "Food", .iso ⟨2025, 6, 5⟩ false⟩] .daily
        ⟨2025, 6, 15⟩).total ∧
    sumAmounts
        [⟨"b", .num 150, "Food", .iso ⟨2025, 6, 5⟩ false⟩,
         ⟨"old", .num 7, "Food", .iso ⟨2025, 5, 6⟩ false⟩] = some (150 + 7) :=
  ⟨C5_out_of_window.1 [⟨"b", .num 150, "Food", .iso ⟨2025, 6, 5⟩ false⟩] []
      ⟨"old", .num 7, "Food", .iso ⟨2025, 5, 6⟩ false⟩ .daily ⟨2025, 6, 15⟩
      ⟨2025, 5, 6⟩ 7 ((bucketKeys .daily ⟨2025, 6, 15⟩).getD []) rfl rfl
      (by decide) (by decide),
    C5_out_of_window.2.1 [⟨"b", .num 150, "Food", .iso ⟨2025, 6, 5⟩ false⟩] []
      ⟨"old", .num 7, "Food", .iso ⟨2025, 5, 6⟩ false⟩ 7 150 rfl
      (by with_unfolding_all decide)⟩

/-! ### Stable descending sort lemmas -/

theorem insertDescBy_mem [LinearOrder β] (f : α → β) (x b : α) (l : List α) :
    b ∈ insertDescBy f x l ↔ b = x ∨ b ∈ l := by
  induction l with
  | nil => simp [insertDescBy]
  | cons a t ih =>
    unfold insertDescBy
    by_cases hc : f x ≤ f a
    · rw [if_pos hc]
      simp only [List.mem_cons, ih]
      tauto
    · rw [if_neg hc]
      simp only [List.mem_cons]

theorem insertDescBy_pairwise [LinearOrder β] (f : α → β) (x : α) (l : List α)
    (h : l.Pairwise fun a b => f b ≤ f a) :
    (insertDescBy f x l).Pairwise fun a b => f b ≤ f a := by
  induction l with
  | nil => simp [insertDescBy]
  | cons a t ih =>
    rw [List.pairwise_cons] at h
    unfold insertDescBy
    by_cases hc : f x ≤ f a
    · rw [if_pos hc, List.pairwise_cons]
      refine ⟨?_, ih h.2⟩
      intro b hb
      rcases (insertDescBy_mem f x b t).mp hb with rfl | hb
      · exact hc
      · exact h.1 b hb
    · rw [if_neg hc, List.pairwise_cons]
      refine ⟨?_, List.pairwise_cons.mpr h⟩
      intro b hb
      rcases List.mem_cons.mp hb with rfl | hb
      · exact le_of_not_le hc
      · exact le_trans (h.1 b hb) (le_of_not_le hc)

theorem sortDescBy_pairwise [LinearOrder β] (f : α → β) (l : List α) :
    (sortDescBy f l).Pairwise fun a b => f b ≤ f a := by
  unfold sortDescBy
  have haux : ∀ (acc : List α), (acc.Pairwise fun a b => f b ≤ f a) →
      (l.foldl (fun acc x => insertDescBy f x acc) acc).Pairwise fun a b => f b ≤ f a := by
    induction l with
    | nil => intro acc hacc; exact hacc
    | cons x xs ih =>
      intro acc hacc
      exact ih _ (insertDescBy_pairwise f x acc hacc)
  exact haux [] (by simp)

theorem insertDescBy_filter [LinearOrder β] (f : α → β) (x : α) (t0 : β) (acc : List α)
    (hs : acc.Pairwise fun a b => f b ≤ f a) :
    (insertDescBy f x acc).filter (fun y => f y = t0) =
      if f x = t0 then acc.filter (fun y => f y = t0) ++ [x]
      else acc.filter (fun y => f y = t0) := by
  induction acc with
  | nil =>
    by_cases hx : f x = t0 <;> simp [insertDescBy, hx]
  | cons a t ih =>
    rw [List.pairwise_cons] at hs
    unfold insertDescBy
    by_cases hc : f x ≤ f a
    · rw [if_pos hc]
      by_cases ha : f a = t0 <;> by_cases hx : f x = t0 <;>
        simp [List.filter_cons, ha, hx, ih hs.2]
    · rw [if_neg hc]
      have hfa : f a < f x := lt_of_not_le hc
      by_cases hx : f x = t0
      · have hnil : (a :: t).filter (fun y => f y = t0) = [] := by
          rw [List.filter_eq_nil_iff]
          intro b hb
          have hble : f b ≤ f a := by
            rcases List.mem_cons.mp hb with rfl | hb
            · exact le_refl _
            · exact hs.1 b hb
          simp only [decide_eq_true_eq]
          intro hbt
          rw [← hx] at hbt
          exact absurd (lt_of_le_of_lt (hbt ▸ hble) hfa) (lt_irrefl _)
        simp [List.filter_cons, hx, hnil]
      · simp [List.filter_cons, hx]

theorem sortDescBy_filter [LinearOrder β] (f : α → β) (l : List α) (t0 : β) :
    (sortDescBy f l).filter (fun y => f y = t0) = l.filter (fun y => f y = t0) := by
  unfold sortDescBy
  have haux : ∀ (acc : List α), (acc.Pairwise fun a b => f b ≤ f a) →
      (l.foldl (fun acc x => insertDescBy f x acc) acc).filter (fun y => f y = t0) =
        acc.filter (fun y => f y = t0) ++ l.filter (fun y => f y = t0) := by
    induction l with
    | nil => intro acc _; simp
    | cons x xs ih =>
      intro acc hacc
      rw [List.foldl_cons, ih _ (insertDescBy_pairwise f x acc hacc),
        insertDescBy_filter f x t0 acc hacc, List.filter_cons]
      by_cases hx : f x = t0 <;> simp [hx]
  simpa using haux [] (by simp)

theorem insertDescBy_of_le [LinearOrder β] (f : α → β) (x : α) (acc : List α)
    (h : ∀ y ∈ acc, f x ≤ f y) : insertDescBy f x acc = acc ++ [x] := by
  induction acc with
  | nil => rfl
  | cons a t ih =>
    unfold insertDescBy
    rw [if_pos (h a (List.mem_cons_self _ _)),
      ih fun y hy => h y (List.mem_cons_of_mem _ hy)]
    rfl

theorem sortDescBy_of_sorted [LinearOrder β] (f : α → β) (l : List α)
    (h : l.Pairwise fun a b => f b ≤ f a) : sortDescBy f l = l := by
  unfold sortDescBy
  have haux : ∀ (acc : List α), ((acc ++ l).Pairwise fun a b => f b ≤ f a) →
      l.foldl (fun acc x => insertDescBy f x acc) acc = acc ++ l := by
    clear h
    induction l with
    | nil => intro acc _; simp
    | cons x xs ih =>
      intro acc hacc
      rw [List.foldl_cons]
      have hins : insertDescBy f x acc = acc ++ [x] := by
        refine insertDescBy_of_le f x acc fun y hy => ?_
        have := (List.pairwise_append.mp hacc).2.2 y hy x (List.mem_cons_self _ _)
        exact this
      rw [hins, ih (acc ++ [x]) (by simpa using hacc)]
      simp
  simpa using haux [] (by simpa using h)

/-- C7 : `get_top_categories` returns at most `n` pairs, sorted
descending by total; the stable sort preserves the original
mapping-iteration order among equal totals (its restriction to any fixed
total value equals the input's); and the default `n` is 5. -/
theorem C7_top_categories (l : List (String × ℚ)) (n : ℕ) :
    (getTopCategories l n).length ≤ n ∧
    (getTopCategories l n).Pairwise (fun a b => b.2 ≤ a.2) ∧
    (∀ t : ℚ, (sortDescBy (fun kv => kv.2) l).filter (fun y => y.2 = t) =
      l.filter (fun y => y.2 = t)) ∧
    getTopCategories l = (sortDescBy (fun kv => kv.2) l).take 5 := by
  refine ⟨List.length_take_le _ _, ?_, fun t => sortDescBy_filter (fun kv => kv.2) l t, rfl⟩
  exact List.Pairwise.sublist (List.take_sublist _ _) (sortDescBy_pairwise (fun kv => kv.2) l)

/-- C9 (corrected): the composer does not resort — `recent_expenses` is
the first five records in delivered order; only when the input is already
sorted by `created_at` descending (as the upstream query orders it) does
this coincide with the sorted-descending truncation the spec requires. -/
theorem C9_recent_expenses :
    (∀ (l : List Record) (now : Date) (d : Dashboard),
        getDashboardData (some (some l)) now = some d →
        d.recent_expenses = l.take 5) ∧
    (∀ l : List Record,
        l.Pairwise (fun a b =>
          createdSortKey b.created_at ≤ createdSortKey a.created_at) →
        l.take 5 = specRecentExpenses l) := by
  constructor
  · intro l now d h
    cases l with
    | nil =>
      rw [show getDashboardData (some (some [])) now = some emptyDashboard from rfl] at h
      injection h with h
      rw [← h]
      rfl
    | cons x xs =>
      cases hs : sumAmounts (x :: xs) with
      | none =>
        simp only [getDashboardData, hs] at h
        simp at h
      | some tot =>
        cases hcc : categoryTotals (x :: xs) with
        | none =>
          simp only [getDashboardData, hs, hcc] at h
          simp at h
        | some cts =>
          rw [getDashboardData_success x xs now tot cts hs hcc] at h
          injection h with h
          rw [← h]
  · intro l hs
    unfold specRecentExpenses
    rw [sortDescBy_of_sorted _ l hs]

set_option maxRecDepth 4000 in
/-- C9, counterexample to the claim as stated: two records delivered in
ascending `created_at` order are returned as-is by the composer, which
differs from the spec's sorted-descending truncation. -/
theorem C9_counterexample :
    (getDashboardData
        (some (some [⟨"o", .num 1, "A", .iso ⟨2025, 1, 1⟩ false⟩,
          ⟨"n", .num 2, "B", .iso ⟨2025, 2, 1⟩ false⟩])) ⟨2025, 6, 15⟩).map
        (·.recent_expenses) =
      some [⟨"o", .num 1, "A", .iso ⟨2025, 1, 1⟩ false⟩,
        ⟨"n", .num 2, "B", .iso ⟨2025, 2, 1⟩ false⟩] ∧
    specRecentExpenses
        [⟨"o", .num 1, "A", .iso ⟨2025, 1, 1⟩ false⟩,
         ⟨"n", .num 2, "B", .iso ⟨2025, 2, 1⟩ false⟩] =
      [⟨"n", .num 2, "B", .iso ⟨2025, 2, 1⟩ false⟩,
       ⟨"o", .num 1, "A", .iso ⟨2025, 1, 1⟩ false⟩] ∧
    ([⟨"o", .num 1, "A", .iso ⟨2025, 1, 1⟩ false⟩,
       ⟨"n", .num 2, "B", .iso ⟨2025, 2, 1⟩ false⟩] : List Record) ≠
      [⟨"n", .num 2, "B", .iso ⟨2025, 2, 1⟩ false⟩,
       ⟨"o", .num 1, "A", .iso ⟨2025, 1, 1⟩ false⟩] :=
  ⟨by with_unfolding_all decide, by decide, by decide⟩

/-- C9, witness: the amended theorem applied to a concrete
already-sorted two-record input. -/
theorem C9_witness :
    (getDashboardData
        (some (some [⟨"n", .num 2, "B", .iso ⟨2025, 2, 1⟩ false⟩,
          ⟨"o", .num 1, "A", .iso ⟨2025, 1, 1⟩ false⟩])) ⟨2025, 6, 15⟩).map
        (·.recent_expenses) =
      some [⟨"n", .num 2, "B", .iso ⟨2025, 2, 1⟩ false⟩,
        ⟨"o", .num 1, "A", .iso ⟨2025, 1, 1⟩ false⟩] ∧
    ([⟨"n", .num 2, "B", .iso ⟨2025, 2, 1⟩ false⟩,
       ⟨"o", .num 1, "A", .iso ⟨2025, 1, 1⟩ false⟩] : List Record).take 5 =
      specRecentExpenses
        [⟨"n", .num 2, "B", .iso ⟨2025, 2, 1⟩ false⟩,
         ⟨"o", .num 1, "A", .iso ⟨2025, 1, 1⟩ false⟩] := by
  constructor
  · have hsome : (getDashboardData
        (some (some [⟨"n", .num 2, "B", .iso ⟨2025, 2, 1⟩ false⟩,
          ⟨"o", .num 1, "A", .iso ⟨2025, 1, 1⟩ false⟩])) ⟨2025, 6, 15⟩).isSome = true := by
      with_unfolding_all decide
    cases hd : getDashboardData
        (some (some [⟨"n", .num 2, "B", .iso ⟨2025, 2, 1⟩ false⟩,
          ⟨"o", .num 1, "A", .iso ⟨2025, 1, 1⟩ false⟩])) ⟨2025, 6, 15⟩ with
    | none => rw [hd] at hsome; simp at hsome
    | some d =>
      have := C9_recent_expenses.1 _ _ _ hd
      simp [this]
  · exact C9_recent_expenses.2 _ (by decide)

end FinanceTracker
